import Mathlib

/-!
Verification of the drastic/indigo namespace-metadata engine.

This file gives a shallow embedding of the repository's core models
(`Collection`, `Resource`, `DataObject`, `SearchIndex`, the ID index and
the MQTT notification emitter) and proves or refutes the specification
claims about them.  The store is modelled as explicit state (lists of
rows keyed the way the Cassandra tables are keyed), operations are
state-passing functions, and Python exceptions are `Except` values.
-/

namespace Drastic

/-! ## Path utilities

Modelled from the spec: `indigo/util.py` (the `split`, `merge` and
`default_cdmi_id` helpers) is not part of the provided sources; the spec
describes `split(path) -> (container, name)` as separating the final
segment of a `/`-delimited string from its prefix, and
`merge(container, name)` as the inverse, collapsing redundant
separators.  We realise them over the character list of the string. -/

/-- True when the string's last character is the path separator. -/
def endsSlash (s : String) : Bool := s.data.getLast? = some '/'

/-- Modelled from the spec: `merge(container, name)` joins a container
path and a leaf name with a single separator. -/
def merge (container name : String) : String :=
  if endsSlash container then String.mk (container.data ++ name.data)
  else String.mk (container.data ++ '/' :: name.data)

/-- Modelled from the spec: `split(path)` separates the final segment
from its prefix; an empty prefix maps to the root container `/`. -/
def split (p : String) : String × String :=
  let r := p.data.reverse
  let nm := (r.takeWhile (fun c => ¬ c = '/')).reverse
  let ct := ((r.dropWhile (fun c => ¬ c = '/')).drop 1).reverse
  (if ct.isEmpty then "/" else String.mk ct, String.mk nm)

/-! ## Access control evaluator

`Collection.user_can` (src/indigo/models/collection.py, lines 290-308)
and `Resource.user_can` (src/drastic/models/resource.py, lines 196-215)
are the same algorithm over the entry's four access lists.  The
principal collaborator exposes `administrator : bool` and
`groups : set of string` (spec section 6), so groups are a finite set. -/

/-- The four actions the evaluator recognises. -/
inductive Action
  | read
  | write
  | edit
  | delete
deriving DecidableEq, Repr

/-- The principal collaborator supplied by the auth layer. -/
structure Principal where
  administrator : Bool
  groups : Finset String

/-- A row of the `collection` table (src/indigo/models/collection.py). -/
structure CollectionRow where
  id : String
  container : String
  name : String
  metadata : List (String × String) := []
  createTs : Nat := 0
  modifiedTs : Nat := 0
  isRoot : Bool := false
  readAccess : List String := []
  editAccess : List String := []
  writeAccess : List String := []
  deleteAccess : List String := []
deriving DecidableEq, Repr

/-- A row of the `resource` table (src/drastic/models/resource.py). -/
structure ResourceRow where
  id : String
  container : String
  name : String
  metadata : List (String × String) := []
  createTs : Nat := 0
  modifiedTs : Nat := 0
  size : Nat := 0
  url : String := ""
  readAccess : List String := []
  editAccess : List String := []
  writeAccess : List String := []
  deleteAccess : List String := []
deriving DecidableEq, Repr

/-- The access list the dynamic lookup `getattr(self, action + "_access")`
selects on a collection. -/
def CollectionRow.accessList (c : CollectionRow) : Action → List String
  | .read => c.readAccess
  | .write => c.writeAccess
  | .edit => c.editAccess
  | .delete => c.deleteAccess

/-- The access list the dynamic lookup selects on a resource. -/
def ResourceRow.accessList (r : ResourceRow) : Action → List String
  | .read => r.readAccess
  | .write => r.writeAccess
  | .edit => r.editAccess
  | .delete => r.deleteAccess

/-- The shared body of both `user_can` methods, transliterated from the
source: administrators pass; a non-empty list with a group-less user is
denied; an empty list is open; otherwise the user's groups minus the
list must have lost at least one member. -/
def userCanOn (l : List String) (user : Principal) : Bool :=
  if user.administrator then true
  else if l.length ≠ 0 ∧ user.groups.card = 0 then false
  else if l.length = 0 then true
  else decide ((user.groups \ l.toFinset).card < user.groups.card)

/-- `Collection.user_can` from src/indigo/models/collection.py. -/
def CollectionRow.userCan (c : CollectionRow) (user : Principal) (action : Action) : Bool :=
  userCanOn (c.accessList action) user

/-- `Resource.user_can` from src/drastic/models/resource.py. -/
def ResourceRow.userCan (r : ResourceRow) (user : Principal) (action : Action) : Bool :=
  userCanOn (r.accessList action) user

/-! ## The store

The column store is modelled as explicit lists of rows.  Collections and
resources are keyed by `(container, name)` (their Cassandra primary
key), the ID index by `id`, so every write is an upsert on that key and
every delete removes the key.  The MQTT transport is a Boolean oracle:
`pub = true` publishes succeed (appending to a notification log),
`pub = false` publishes raise. -/

/-- A row of the ID index table.  Modelled from the spec: the module
`indigo/models/id_index.py` is not among the sources; the spec describes
an entry as `id -> (classname, path)` keyed by the identifier. -/
structure IdIndexRow where
  id : String
  classname : String
  key : String
deriving DecidableEq, Repr

/-- A published MQTT notification (topic plus operation tag). -/
structure Notification where
  topic : String
  op : String
deriving DecidableEq, Repr

/-- A row of the term index table (src/indigo/models/search.py). -/
structure SearchRow where
  id : String
  term : String
  objectType : String
  objectId : String
deriving DecidableEq, Repr

/-- The whole store state, together with the identifier-allocator and
clock state used for fresh ids and timestamps. -/
structure Store where
  collections : List CollectionRow
  resources : List ResourceRow
  idIndex : List IdIndexRow
  searchIndex : List SearchRow
  notifications : List Notification
  nextId : Nat
  clock : Nat
deriving DecidableEq, Repr

/-- The store with no rows. -/
def emptyStore : Store :=
  { collections := [], resources := [], idIndex := [], searchIndex := [],
    notifications := [], nextId := 0, clock := 0 }

/-- Errors the model layer can raise (src/indigo/models/errors.py names,
plus the transport failure that `publish.single` can raise). -/
inductive ModelError
  | noSuchCollection
  | resourceConflict
  | collectionConflict
  | publishFailure
deriving DecidableEq, Repr

/-- Modelled from the spec: `default_cdmi_id` allocates a fresh opaque
identifier; no two live entities share one (spec section 4.2).  The
allocator is modelled as a counter in the store. -/
def freshId (S : Store) : String × Store :=
  ("oid-" ++ toString S.nextId, { S with nextId := S.nextId + 1 })

/-- The current wall-clock reading (`datetime.now()`), advancing. -/
def tick (S : Store) : Nat × Store :=
  (S.clock, { S with clock := S.clock + 1 })

/-- The full path of a collection (`Collection.path`). -/
def CollectionRow.path (c : CollectionRow) : String :=
  if c.isRoot then "/" else merge c.container c.name

/-- The full path of a resource (`Resource.path`). -/
def ResourceRow.path (r : ResourceRow) : String :=
  merge r.container r.name

/-- `Collection.get_root_collection`: the row keyed `(null, Home)`. -/
def getRootCollection (S : Store) : Option CollectionRow :=
  S.collections.find? (fun c => c.container == "null" && c.name == "Home")

/-- `Collection.find_by_path`: `/` short-circuits to the root lookup,
otherwise the path is split and the primary key looked up. -/
def collFindByPath (S : Store) (p : String) : Option CollectionRow :=
  if p = "/" then getRootCollection S
  else
    S.collections.find? (fun c => c.container == (split p).1 && c.name == (split p).2)

/-- `Resource.find_by_path` (no root shortcut). -/
def resFindByPath (S : Store) (p : String) : Option ResourceRow :=
  S.resources.find? (fun r => r.container == (split p).1 && r.name == (split p).2)

/-- `IDIndex.find`: lookup by identifier. -/
def idIndexFind (S : Store) (i : String) : Option IdIndexRow :=
  S.idIndex.find? (fun e => e.id == i)

/-- `IDIndex.create`: upsert keyed by identifier. -/
def idIndexCreate (S : Store) (e : IdIndexRow) : Store :=
  if S.idIndex.any (fun x => x.id == e.id) then
    { S with idIndex := S.idIndex.map (fun x => if x.id == e.id then e else x) }
  else
    { S with idIndex := S.idIndex ++ [e] }

/-- Deleting an ID index row removes its key. -/
def idIndexDelete (S : Store) (e : IdIndexRow) : Store :=
  { S with idIndex := S.idIndex.filter (fun x => !(x.id == e.id)) }

/-- Writing a collection row is an upsert on `(container, name)`. -/
def collInsert (S : Store) (c : CollectionRow) : Store :=
  if S.collections.any (fun x => x.container == c.container && x.name == c.name) then
    let rows := S.collections.map
      fun x => if x.container == c.container && x.name == c.name then c else x
    { S with collections := rows }
  else
    { S with collections := S.collections ++ [c] }

/-- Deleting a collection row removes its `(container, name)` key. -/
def collRemove (S : Store) (c : CollectionRow) : Store :=
  let rows := S.collections.filter
    fun x => !(x.container == c.container && x.name == c.name)
  { S with collections := rows }

/-- Writing a resource row is an upsert on `(container, name)`. -/
def resInsert (S : Store) (r : ResourceRow) : Store :=
  if S.resources.any (fun x => x.container == r.container && x.name == r.name) then
    let rows := S.resources.map
      fun x => if x.container == r.container && x.name == r.name then r else x
    { S with resources := rows }
  else
    { S with resources := S.resources ++ [r] }

/-- Deleting a resource row removes its `(container, name)` key. -/
def resRemove (S : Store) (r : ResourceRow) : Store :=
  let rows := S.resources.filter
    fun x => !(x.container == r.container && x.name == r.name)
  { S with resources := rows }

/-- Split a character list on a separator character. -/
def segsAux (sep : Char) : List Char → List Char → List (List Char)
  | [], acc => [acc.reverse]
  | c :: cs, acc =>
    if c = sep then acc.reverse :: segsAux sep cs [] else segsAux sep cs (c :: acc)

/-- All separator-delimited segments of a character list. -/
def segs (sep : Char) (l : List Char) : List (List Char) := segsAux sep l []

/-- Topic cleanup from `mqtt_publish`: drop empty segments between
slashes, rejoin, and strip the MQTT wildcard characters. -/
def cleanTopic (raw : String) : String :=
  let parts := (segs '/' raw.data).filter (fun s => !s.isEmpty)
  let joined := List.intercalate ['/'] parts
  String.mk (joined.filter (fun ch => !(ch == '#') && !(ch == '+')))

/-- The topic of a collection event: operation, `/collection`, the
container and the name, cleaned up. -/
def collTopic (op : String) (c : CollectionRow) : String :=
  cleanTopic (op ++ "/collection" ++ c.container ++ "/" ++ c.name)

/-- The topic of a resource event. -/
def resTopic (op : String) (r : ResourceRow) : String :=
  cleanTopic (op ++ "/resource" ++ r.container ++ "/" ++ r.name)

/-- `publish.single`: appends to the log when the transport is up,
raises otherwise.  The model layer never catches this error. -/
def publishSingle (pub : Bool) (S : Store) (topic op : String) :
    Except ModelError Store :=
  if pub then .ok { S with notifications := S.notifications ++ [{ topic := topic, op := op }] }
  else .error .publishFailure

/-- `Collection.mqtt_publish` with the collection's topic. -/
def collMqttPublish (pub : Bool) (S : Store) (op : String) (c : CollectionRow) :
    Except ModelError Store :=
  publishSingle pub S (collTopic op c) op

/-- Modelled from the spec: `meta_cdmi_to_cassandra` re-serialises
metadata at the write boundary; the encoding is treated as the identity
on the ordered key-value list. -/
def metaCdmiToCassandra (m : List (String × String)) : List (String × String) := m

/-- Modelled from the spec: `meta_cassandra_to_cdmi`, the read-side
counterpart. -/
def metaCassandraToCdmi (m : List (String × String)) : List (String × String) := m

/-- `Collection.create` (src/indigo/models/collection.py lines 64-110):
parent existence, resource conflict and collection conflict are checked
in that order before the insert; then the row is written, the `create`
notification published, and the ID index row created. -/
def collCreate (pub : Bool) (S : Store) (container name : String)
    (metadata : List (String × String)) : Except ModelError CollectionRow × Store :=
  match collFindByPath S container with
  | none => (.error .noSuchCollection, S)
  | some _ =>
    match resFindByPath S (merge container name) with
    | some _ => (.error .resourceConflict, S)
    | none =>
      match collFindByPath S (merge container name) with
      | some _ => (.error .collectionConflict, S)
      | none =>
        let d := (tick S).1
        let S0 := (tick S).2
        let i := (freshId S0).1
        let S1 := (freshId S0).2
        let row : CollectionRow :=
          { id := i, container := container, name := name,
            metadata := metaCdmiToCassandra metadata, createTs := d, modifiedTs := d }
        let S2 := collInsert S1 row
        match collMqttPublish pub S2 "create" row with
        | .error e => (.error e, S2)
        | .ok S3 =>
          let S4 := idIndexCreate S3
            { id := row.id, classname := "indigo.models.collection.Collection",
              key := row.path }
          (.ok row, S4)

/-- `Collection.create_root` (lines 112-122): builds the row keyed
`(null, Home)` flagged root and saves it; no conflict check, no
notification, no ID index row. -/
def createRoot (S : Store) : CollectionRow × Store :=
  let d := (tick S).1
  let S0 := (tick S).2
  let i := (freshId S0).1
  let S1 := (freshId S0).2
  let root : CollectionRow :=
    { id := i, container := "null", name := "Home", isRoot := true,
      createTs := d, modifiedTs := d }
  (root, collInsert S1 root)

/-- `Collection.delete` (lines 148-154): publish the `delete` event
first, then remove the ID index entry if it exists, then the row. -/
def collDelete (pub : Bool) (S : Store) (c : CollectionRow) :
    Except ModelError Unit × Store :=
  match collMqttPublish pub S "delete" c with
  | .error e => (.error e, S)
  | .ok S1 =>
    let S2 := match idIndexFind S1 c.id with
      | some idx => idIndexDelete S1 idx
      | none => S1
    (.ok (), collRemove S2 c)

/-- `Collection.update` (lines 271-288): refresh `modified_ts`, write
the row, then publish `update_object` or `update_metadata` depending on
whether the metadata map changed. -/
def collUpdate (pub : Bool) (S : Store) (c : CollectionRow)
    (newMeta : Option (List (String × String))) :
    Except ModelError CollectionRow × Store :=
  let preMeta := metaCassandraToCdmi c.metadata
  let d := (tick S).1
  let S1 := (tick S).2
  let row : CollectionRow :=
    { c with modifiedTs := d,
             metadata := match newMeta with
               | some m => metaCdmiToCassandra m
               | none => c.metadata }
  let S2 := collInsert S1 row
  let postMeta := metaCassandraToCdmi row.metadata
  let op := if preMeta = postMeta then "update_object" else "update_metadata"
  match collMqttPublish pub S2 op row with
  | .error e => (.error e, S2)
  | .ok S3 => (.ok row, S3)

/-- `Resource.create` (src/drastic/models/resource.py lines 57-91):
container existence then per-container name uniqueness are checked;
no check against collections at the target path is made.  On success
the row is written and the `create` event published. -/
def resCreate (pub : Bool) (S : Store) (container name : String) :
    Except ModelError ResourceRow × Store :=
  match collFindByPath S container with
  | none => (.error .noSuchCollection, S)
  | some _ =>
    if S.resources.any (fun r => r.container == container && r.name == name) then
      (.error .resourceConflict, S)
    else
      let d := (tick S).1
      let S0 := (tick S).2
      let i := (freshId S0).1
      let S1 := (freshId S0).2
      let row : ResourceRow :=
        { id := i, container := container, name := name, createTs := d, modifiedTs := d }
      let S2 := resInsert S1 row
      match publishSingle pub S2 (resTopic "create" row) "create" with
      | .error e => (.error e, S2)
      | .ok S3 => (.ok row, S3)

/-- `Resource.delete` (lines 111-113): publish, then remove the row. -/
def resDelete (pub : Bool) (S : Store) (r : ResourceRow) :
    Except ModelError Unit × Store :=
  match publishSingle pub S (resTopic "delete" r) "delete" with
  | .error e => (.error e, S)
  | .ok S1 => (.ok (), resRemove S1 r)

/-- Child collections of a collection: rows whose container is its path. -/
def childCollections (S : Store) (c : CollectionRow) : List CollectionRow :=
  S.collections.filter (fun x => x.container == c.path)

/-- Child resources of a collection. -/
def childResources (S : Store) (c : CollectionRow) : List ResourceRow :=
  S.resources.filter (fun x => x.container == c.path)

/-- The resource-deletion loop at the head of `delete_all`. -/
def delResources (pub : Bool) : Store → List ResourceRow → Except ModelError Unit × Store
  | S, [] => (.ok (), S)
  | S, r :: rs =>
    match resDelete pub S r with
    | (.error e, S1) => (.error e, S1)
    | (.ok _, S1) => delResources pub S1 rs

/-- The `for collection in collections` loop of `delete_all`: run the
recursive delete (passed in as `rec`) on each child path in turn,
threading the store and propagating fuel exhaustion and errors. -/
def deleteAllGoList (rec : Store → String → Option (Except ModelError Unit × Store)) :
    Store → List CollectionRow → Option (Except ModelError Unit × Store)
  | T, [] => some (.ok (), T)
  | T, c :: cs =>
    match rec T c.path with
    | none => none
    | some (Except.error e, T1) => some (Except.error e, T1)
    | some (Except.ok _, T1) => deleteAllGoList rec T1 cs

/-- `Collection.delete_all` (lines 156-174) with explicit recursion
fuel: find the collection, delete its child resources, recurse into
each child collection, then delete the collection itself.  `none`
means the fuel ran out before the recursion finished. -/
def deleteAllFuel (pub : Bool) : Nat → Store → String → Option (Except ModelError Unit × Store)
  | 0, _, _ => none
  | n + 1, S, p =>
    match collFindByPath S p with
    | none => some (.ok (), S)
    | some parent =>
      let children := childCollections S parent
      let rss := childResources S parent
      match delResources pub S rss with
      | (.error e, S1) => some (.error e, S1)
      | (.ok _, S1) =>
        match deleteAllGoList (deleteAllFuel pub n) S1 children with
        | none => none
        | some (Except.error e, S2) => some (Except.error e, S2)
        | some (Except.ok _, S2) => some (collDelete pub S2 parent)

/-- Removing the members of `L` from `G` loses cardinality exactly when
some member of `G` lies in `L`. -/
lemma card_sdiff_lt_iff (G L : Finset String) :
    (G \ L).card < G.card ↔ ∃ g ∈ G, g ∈ L := by
  constructor
  · intro h
    by_contra hc
    push_neg at hc
    have hd : Disjoint G L := Finset.disjoint_left.mpr hc
    rw [Finset.sdiff_eq_self_iff_disjoint.mpr hd] at h
    exact lt_irrefl _ h
  · rintro ⟨g, hg, hgl⟩
    apply Finset.card_lt_card
    rw [Finset.ssubset_iff_subset_ne]
    refine ⟨Finset.sdiff_subset, fun he => ?_⟩
    rw [← he] at hg
    exact (Finset.mem_sdiff.mp hg).2 hgl

/-- Characterisation of the shared `user_can` body. -/
lemma userCanOn_iff (l : List String) (u : Principal) :
    userCanOn l u = true ↔
      (u.administrator = true ∨ l = [] ∨ ∃ g ∈ u.groups, g ∈ l) := by
  unfold userCanOn
  split_ifs with h1 h2 h3
  · simp [h1]
  · have hG : u.groups = ∅ := Finset.card_eq_zero.mp h2.2
    have hl : l ≠ [] := fun he => h2.1 (by simp [he])
    simp [h1, hl, hG]
  · have hl : l = [] := List.length_eq_zero.mp h3
    simp [h1, hl]
  · push_neg at h2
    have hl : l ≠ [] := fun he => h3 (by simp [he])
    rw [decide_eq_true_iff]
    rw [card_sdiff_lt_iff]
    simp only [List.mem_toFinset]
    simp [h1, hl]

/-- C1: for every principal, entry (Collection or Resource) and action,
`user_can` returns true iff the principal is an administrator, or the
entry's access list for the action is empty, or the principal has at
least one group in that list; a group-less principal is denied whenever
the list is non-empty. -/
theorem claim1_user_can_iff (u : Principal) (c : CollectionRow) (r : ResourceRow)
    (a : Action) :
    (c.userCan u a = true ↔
      (u.administrator = true ∨ c.accessList a = [] ∨ ∃ g ∈ u.groups, g ∈ c.accessList a))
    ∧ (r.userCan u a = true ↔
      (u.administrator = true ∨ r.accessList a = [] ∨ ∃ g ∈ u.groups, g ∈ r.accessList a)) :=
  ⟨userCanOn_iff (c.accessList a) u, userCanOn_iff (r.accessList a) u⟩

end Drastic

namespace Drastic

/-! ## Sample stores used by witnesses and counterexamples -/

/-- The root collection row produced by `create_root` on an empty store. -/
def rootRow : CollectionRow := (createRoot emptyStore).1

/-- A store holding just the root collection. -/
def storeA : Store := (createRoot emptyStore).2

/-- Root plus the collection `/a`. -/
def storeB : Store := (collCreate true storeA "/" "a" []).2

/-- Root, `/a` and the collection `/a/b`. -/
def storeC : Store := (collCreate true storeB "/a" "b" []).2

/-- Root, `/a` and the resource `/f.txt`. -/
def storeD : Store := (resCreate true storeB "/" "f.txt").2

/-- A row written by `collInsert` is afterwards in the collection list,
whether the write created the key or overwrote it. -/
lemma mem_collInsert_self (S : Store) (c : CollectionRow) :
    c ∈ (collInsert S c).collections := by
  unfold collInsert
  by_cases h : S.collections.any (fun x => x.container == c.container && x.name == c.name)
  · simp only [h, if_true]
    simp only [List.any_eq_true] at h
    obtain ⟨x, hx, hkey⟩ := h
    refine List.mem_map.mpr ⟨x, hx, ?_⟩
    simp [hkey]
  · simp [h]

/-- C2: `Collection.create` fails with `NoSuchCollection` when the
container does not resolve, else with `ResourceConflict` when a resource
occupies the merged path, else with `CollectionConflict` when a
collection occupies it; in each case the returned store is exactly the
input store, so no row, no ID index entry and no notification persists. -/
theorem claim2_create_failure_cases (pub : Bool) (S : Store) (container nm : String)
    (md : List (String × String)) :
    (collFindByPath S container = none →
      collCreate pub S container nm md = (.error .noSuchCollection, S))
    ∧ (∀ parent, collFindByPath S container = some parent →
        ∀ r, resFindByPath S (merge container nm) = some r →
        collCreate pub S container nm md = (.error .resourceConflict, S))
    ∧ (∀ parent, collFindByPath S container = some parent →
        resFindByPath S (merge container nm) = none →
        ∀ c, collFindByPath S (merge container nm) = some c →
        collCreate pub S container nm md = (.error .collectionConflict, S)) := by
  refine ⟨fun h => ?_, fun p hp r hr => ?_, fun p hp hr c hc => ?_⟩ <;>
    unfold collCreate <;> simp_all

/-- Concrete instances of the three failure cases of C2. -/
theorem claim2_create_failure_cases_witness :
    collCreate true storeD "/nope" "x" [] = (.error .noSuchCollection, storeD)
    ∧ collCreate true storeD "/" "f.txt" [] = (.error .resourceConflict, storeD)
    ∧ collCreate true storeD "/" "a" [] = (.error .collectionConflict, storeD) := by
  refine ⟨?_, ?_, ?_⟩
  · exact (claim2_create_failure_cases true storeD "/nope" "x" []).1 (by decide)
  · exact (claim2_create_failure_cases true storeD "/" "f.txt" []).2.1
      ((collFindByPath storeD "/").get (by decide)) (by decide)
      ((resFindByPath storeD (merge "/" "f.txt")).get (by decide)) (by decide)
  · exact (claim2_create_failure_cases true storeD "/" "a" []).2.2
      ((collFindByPath storeD "/").get (by decide)) (by decide) (by decide)
      ((collFindByPath storeD (merge "/" "a")).get (by decide)) (by decide)

end Drastic

namespace Drastic

/-- Inserting a collection row leaves the ID index untouched. -/
lemma collInsert_idIndex (S : Store) (c : CollectionRow) :
    (collInsert S c).idIndex = S.idIndex := by
  unfold collInsert
  split <;> rfl

/-- C5 counterexample: after two `create_root` calls on an empty store
there is one stored collection entry, not two. -/
theorem claim5_counterexample :
    ¬ ((createRoot (createRoot emptyStore).2).2.collections.length = 2) := by decide

/-- C5 amended: `create_root` saves under the fixed primary key
`(null, Home)`, so a second invocation overwrites the first row and the
store ends with exactly one entry flagged root. -/
theorem claim5_create_root_overwrites :
    ((createRoot (createRoot emptyStore).2).2.collections.map
      (fun c => (c.container, c.name, c.isRoot))) = [("null", "Home", true)] := by decide

/-- C10: deleting a collection whose id has no ID index entry completes
without raising: the notification is published, the index untouched, and
the row removed. -/
theorem claim10_delete_skips_missing_index (S : Store) (c : CollectionRow)
    (hmem : c ∈ S.collections) (hidx : idIndexFind S c.id = none) :
    (collDelete true S c).1 = .ok ()
    ∧ (collDelete true S c).2.collections =
        S.collections.filter (fun x => !(x.container == c.container && x.name == c.name))
    ∧ (collDelete true S c).2.idIndex = S.idIndex
    ∧ (collDelete true S c).2.resources = S.resources
    ∧ (collDelete true S c).2.notifications =
        S.notifications ++ [{ topic := collTopic "delete" c, op := "delete" }] := by
  unfold collDelete collMqttPublish publishSingle collRemove idIndexFind
  unfold idIndexFind at hidx
  simp [hidx]

/-- Concrete instance of C10: the root row has no ID index entry and
still deletes cleanly. -/
theorem claim10_delete_skips_missing_index_witness :
    (collDelete true storeA rootRow).1 = .ok ()
    ∧ (collDelete true storeA rootRow).2.idIndex = storeA.idIndex :=
  ⟨(claim10_delete_skips_missing_index storeA rootRow (by decide) (by decide)).1,
   (claim10_delete_skips_missing_index storeA rootRow (by decide) (by decide)).2.2.1⟩

/-- C3 counterexample: with the transport down, `Collection.delete`
raises and the row is still there — the store mutation was blocked and
the failure propagated to the caller. -/
theorem claim3_counterexample :
    collDelete false storeA rootRow = (.error .publishFailure, storeA)
    ∧ rootRow ∈ storeA.collections := ⟨rfl, by decide⟩

/-- C3 amended: a publish failure propagates to the caller as an error
in every collection mutation.  For `create` the row write precedes the
publish, so the row survives but the ID index write is skipped; for
`update` the row write also precedes the publish and survives; for
`delete` the publish comes first, so the failure blocks the row
removal entirely. -/
theorem claim3_publish_failure_not_swallowed (S : Store) (c : CollectionRow)
    (container nm : String) (md : List (String × String))
    (newMeta : Option (List (String × String))) (parent : CollectionRow)
    (hp : collFindByPath S container = some parent)
    (hr : resFindByPath S (merge container nm) = none)
    (hc : collFindByPath S (merge container nm) = none) :
    collDelete false S c = (.error .publishFailure, S)
    ∧ ((collCreate false S container nm md).1 = .error .publishFailure
       ∧ (collCreate false S container nm md).2.idIndex = S.idIndex
       ∧ ∃ row, row.container = container ∧ row.name = nm
           ∧ row ∈ (collCreate false S container nm md).2.collections)
    ∧ ((collUpdate false S c newMeta).1 = .error .publishFailure
       ∧ ∃ row, row.container = c.container ∧ row.name = c.name
           ∧ row.modifiedTs = S.clock
           ∧ row ∈ (collUpdate false S c newMeta).2.collections) := by
  refine ⟨rfl, ?_, ?_⟩
  · unfold collCreate
    simp only [hp, hr, hc]
    refine ⟨rfl, ?_, ?_⟩
    · exact collInsert_idIndex _ _
    · refine ⟨_, ?_, ?_, mem_collInsert_self _ _⟩ <;> rfl
  · unfold collUpdate
    refine ⟨rfl, ?_⟩
    refine ⟨_, ?_, ?_, ?_, mem_collInsert_self _ _⟩ <;> rfl

/-- Concrete instance of C3's amended statement. -/
theorem claim3_publish_failure_not_swallowed_witness :
    collDelete false storeA rootRow = (.error .publishFailure, storeA)
    ∧ (collCreate false storeA "/" "x" []).1 = .error .publishFailure :=
  ⟨(claim3_publish_failure_not_swallowed storeA rootRow "/" "x" [] none
      ((collFindByPath storeA "/").get (by decide)) (by decide) (by decide) (by decide)).1,
   (claim3_publish_failure_not_swallowed storeA rootRow "/" "x" [] none
      ((collFindByPath storeA "/").get (by decide)) (by decide) (by decide) (by decide)).2.1.1⟩

/-- C4 counterexample: in the reachable store with collections `/`,
`/a` and `/a/b`, creating the resource `(container /a, name b)`
succeeds and its full path `/a/b` equals an existing collection path. -/
theorem claim4_counterexample :
    ((resCreate true storeC "/a" "b").1.isOk = true)
    ∧ ((resCreate true storeC "/a" "b").2.resources.map (fun r => r.path)) = ["/a/b"]
    ∧ ((storeC.collections.map (fun c => c.path)).contains "/a/b" = true) := by decide

/-- C4 amended: `Resource.create` checks only container existence and
per-container name uniqueness; it succeeds even when a collection
occupies the target path, so creates do not preserve the
no-path-collision invariant. -/
theorem claim4_resource_create_ignores_collection_paths (S : Store) (container nm : String)
    (parent col : CollectionRow)
    (hp : collFindByPath S container = some parent)
    (hfree : S.resources.any (fun r => r.container == container && r.name == nm) = false)
    (hcol : col ∈ S.collections) (hcolpath : col.path = merge container nm) :
    ∃ row, (resCreate true S container nm).1 = .ok row ∧ row.path = merge container nm := by
  unfold resCreate
  simp only [hp, hfree]
  exact ⟨_, rfl, rfl⟩

/-- Concrete instance of C4's amended statement. -/
theorem claim4_resource_create_ignores_collection_paths_witness :
    ∃ row, (resCreate true storeC "/a" "b").1 = .ok row ∧ row.path = merge "/a" "b" :=
  claim4_resource_create_ignores_collection_paths storeC "/a" "b"
    ((collFindByPath storeC "/a").get (by decide))
    ((collFindByPath storeC "/a/b").get (by decide))
    (by decide) (by decide) (by decide) (by decide)

end Drastic

namespace Drastic

/-! ## Data object chunks

`DataObject` (src/indigo/models/data_object.py) keys chunk records by
`(id, sequence_number)`; the clustering key orders a partition by
ascending sequence number, which is what `objects.filter(id=..)`
returns.  A blob is raw bytes or a zip archive holding one named
member; `chunk_content` reads the member called `data` from compressed
chunks.  The static header columns (checksum, size, metadata, acl, ...)
are shared per partition and are not touched by the chunk iteration, so
they are not modelled here. -/

/-- A stored blob: raw bytes, or an archive with a single named member. -/
inductive Blob
  | raw (bytes : List Nat)
  | archive (member : String) (bytes : List Nat)
deriving DecidableEq, Repr

/-- Reading one member out of an archive blob (`zipfile.ZipFile.read`);
fails on a raw blob or a missing member name. -/
def zipRead (member : String) (b : Blob) : Option (List Nat) :=
  match b with
  | .archive m d => if m = member then some d else none
  | .raw _ => none

/-- A chunk record of the `data_object` table. -/
structure DataObjectRow where
  id : String
  sequenceNumber : Nat
  blob : Blob
  compressed : Bool
deriving DecidableEq, Repr

/-- `DataObject.append_chunk`: save a chunk record, an upsert on the
`(id, sequence_number)` key. -/
def appendChunk (table : List DataObjectRow) (i : String) (data : Blob)
    (seq : Nat) (compressed : Bool) : List DataObjectRow :=
  let row : DataObjectRow := { id := i, sequenceNumber := seq, blob := data, compressed := compressed }
  if table.any (fun r => r.id == i && r.sequenceNumber == seq) then
    table.map (fun r => if r.id == i && r.sequenceNumber == seq then row else r)
  else
    table ++ [row]

/-- Insert a chunk row into a sequence-sorted list. -/
def insertChunkSorted (r : DataObjectRow) : List DataObjectRow → List DataObjectRow
  | [] => [r]
  | x :: xs =>
    if r.sequenceNumber ≤ x.sequenceNumber then r :: x :: xs
    else x :: insertChunkSorted r xs

/-- Clustering order of a partition: rows sorted by sequence number. -/
def sortChunks : List DataObjectRow → List DataObjectRow
  | [] => []
  | x :: xs => insertChunkSorted x (sortChunks xs)

/-- One step of the `chunk_content` generator: decompress the single
`data` member when the chunk is compressed, else yield the raw blob.
Yielding the serialised bytes of an archive stored uncompressed is
outside the byte model and maps to `none`. -/
def chunkBytes (e : DataObjectRow) : Option (List Nat) :=
  if e.compressed then zipRead "data" e.blob
  else
    match e.blob with
    | .raw d => some d
    | .archive _ _ => none

/-- Run the generator body over a list of rows, propagating failure. -/
def chunkBytesList : List DataObjectRow → Option (List (List Nat))
  | [] => some []
  | e :: es =>
    match chunkBytes e, chunkBytesList es with
    | some b, some bs => some (b :: bs)
    | _, _ => none

/-- `DataObject.chunk_content`: a fresh range query over the partition
in clustering order, decompressing per chunk. -/
def chunkContent (table : List DataObjectRow) (i : String) : Option (List (List Nat)) :=
  chunkBytesList (sortChunks (table.filter (fun r => r.id == i)))

/-- How a writer stores one chunk: compressed chunks are archives whose
single member `data` holds the original bytes. -/
def encodeChunk (spec : List Nat × Bool) : Blob :=
  if spec.2 then .archive "data" spec.1 else .raw spec.1

/-- Write chunks for the specs, numbering them from `k` upwards. -/
def writeChunksFrom (i : String) : Nat → List (List Nat × Bool) → List DataObjectRow → List DataObjectRow
  | _, [], t => t
  | k, s :: ss, t => writeChunksFrom i (k + 1) ss (appendChunk t i (encodeChunk s) k s.2)

/-- The row one chunk write produces. -/
def chunkRow (i : String) (k : Nat) (s : List Nat × Bool) : DataObjectRow :=
  { id := i, sequenceNumber := k, blob := encodeChunk s, compressed := s.2 }

/-- The rows such a writer produces, numbered from `k`. -/
def rowsFrom (i : String) : Nat → List (List Nat × Bool) → List DataObjectRow
  | _, [] => []
  | k, s :: ss => chunkRow i k s :: rowsFrom i (k + 1) ss

end Drastic

namespace Drastic

/-- Writing fresh chunk numbers appends rows: the partition ends up
holding exactly the written rows after any unrelated rows. -/
lemma filter_writeChunksFrom (i : String) (ss : List (List Nat × Bool)) :
    ∀ (k : Nat) (t : List DataObjectRow),
      (∀ r ∈ t, r.id ≠ i ∨ r.sequenceNumber < k) →
      (writeChunksFrom i k ss t).filter (fun r => r.id == i) =
        t.filter (fun r => r.id == i) ++ rowsFrom i k ss := by
  induction ss with
  | nil =>
    intro k t h
    simp [writeChunksFrom, rowsFrom]
  | cons s ss ih =>
    intro k t h
    have hkey : t.any (fun r => r.id == i && r.sequenceNumber == k) = false := by
      rw [List.any_eq_false]
      intro r hr
      rcases h r hr with h1 | h2
      · simp [beq_iff_eq, h1]
      · simp only [Bool.and_eq_true, beq_iff_eq, not_and]
        intro _
        omega
    have happ : appendChunk t i (encodeChunk s) k s.2 = t ++ [chunkRow i k s] := by
      unfold appendChunk chunkRow
      simp [hkey]
    have hinv : ∀ r ∈ t ++ [chunkRow i k s], r.id ≠ i ∨ r.sequenceNumber < k + 1 := by
      intro r hr
      rcases List.mem_append.mp hr with h1 | h2
      · rcases h r h1 with ha | hb
        · exact .inl ha
        · right
          omega
      · simp only [List.mem_singleton] at h2
        subst h2
        right
        show k < k + 1
        omega
    unfold writeChunksFrom rowsFrom
    rw [happ, ih (k + 1) _ hinv, List.filter_append]
    simp [chunkRow]

/-- The writer's rows arrive in ascending sequence order, so the
clustering sort leaves them as written. -/
lemma sortChunks_rowsFrom (i : String) (ss : List (List Nat × Bool)) :
    ∀ k, sortChunks (rowsFrom i k ss) = rowsFrom i k ss := by
  induction ss with
  | nil => intro k; rfl
  | cons s ss ih =>
    intro k
    unfold rowsFrom sortChunks
    rw [ih (k + 1)]
    cases ss with
    | nil => rfl
    | cons s2 ss2 =>
      unfold rowsFrom insertChunkSorted chunkRow
      rw [if_pos (Nat.le_succ k)]

/-- Decoding the writer's rows recovers the original byte blocks. -/
lemma chunkBytesList_rowsFrom (i : String) (ss : List (List Nat × Bool)) :
    ∀ k, chunkBytesList (rowsFrom i k ss) = some (ss.map Prod.fst) := by
  induction ss with
  | nil => intro k; rfl
  | cons s ss ih =>
    intro k
    unfold rowsFrom chunkBytesList
    rw [ih (k + 1)]
    have hb : chunkBytes (chunkRow i k s) = some s.1 := by
      unfold chunkBytes chunkRow encodeChunk zipRead
      rcases s with ⟨d, c⟩
      cases c <;> simp
    rw [hb]
    simp

/-- C8: writing chunks 0..n-1 for a fresh identity (each chunk raw, or
compressed as a single-member archive `data` holding the original
bytes) and reading via `chunk_content` yields exactly the original
blocks in ascending sequence order, so their concatenation reproduces
the content. -/
theorem claim8_chunk_round_trip (i : String) (specs : List (List Nat × Bool))
    (t : List DataObjectRow) (hdisj : ∀ r ∈ t, r.id ≠ i) :
    chunkContent (writeChunksFrom i 0 specs t) i = some (specs.map Prod.fst)
    ∧ ∃ blocks, chunkContent (writeChunksFrom i 0 specs t) i = some blocks
        ∧ blocks.flatten = (specs.map Prod.fst).flatten := by
  have h0 : ∀ r ∈ t, r.id ≠ i ∨ r.sequenceNumber < 0 := fun r hr => .inl (hdisj r hr)
  have hf := filter_writeChunksFrom i specs 0 t h0
  have ht : t.filter (fun r => r.id == i) = [] := by
    rw [List.filter_eq_nil_iff]
    intro r hr
    simp [beq_iff_eq, hdisj r hr]
  unfold chunkContent
  rw [hf, ht, List.nil_append, sortChunks_rowsFrom, chunkBytesList_rowsFrom]
  exact ⟨rfl, _, rfl, rfl⟩

/-- Concrete instance of C8 mixing raw and compressed chunks. -/
theorem claim8_chunk_round_trip_witness :
    chunkContent (writeChunksFrom "d1" 0 [([1, 2], false), ([3], true), ([4, 5], false)] []) "d1"
      = some [[1, 2], [3], [4, 5]] :=
  (claim8_chunk_round_trip "d1" [([1, 2], false), ([3], true), ([4, 5], false)] []
    (by intro r hr; cases hr)).1

end Drastic

namespace Drastic

/-! ## Term index (src/indigo/models/search.py)

`index` tokenizes the named fields (lower-case, underscores to spaces,
split on space), discards stop words and inserts one row per remaining
term; `find` looks every non-stop term up, resolves hits back to
collections, groups them by object id with a hit count and sorts by
descending hit count.  ASCII lowering models the Python `str.lower`. -/

/-- ASCII lower-casing of one character. -/
def lowChar (c : Char) : Char :=
  if 'A' ≤ c ∧ c ≤ 'Z' then Char.ofNat (c.toNat + 32) else c

/-- The `clean` tokenizer inside `SearchIndex.index`. -/
def clean (t : String) : List String :=
  let lowered := t.data.map lowChar
  let replaced := lowered.map (fun ch => if ch = '_' then ' ' else ch)
  (segs ' ' replaced).map String.mk

/-- `SearchIndex.is_stop_word`. -/
def isStopWord (t : String) : Bool :=
  t == "a" || t == "the" || t == "of" || t == "is"

/-- The dynamic `getattr(object, f)` on a collection, for the fields the
index callers use; unknown fields raise. -/
def collGetattr (c : CollectionRow) (f : String) : Option String :=
  if f = "name" then some c.name
  else if f = "container" then some c.container
  else if f = "id" then some c.id
  else none

/-- The term accumulation loop of `index`: `clean` of every named field,
concatenated; fails if a field is unknown. -/
def collFieldTerms (c : CollectionRow) : List String → Option (List String)
  | [] => some []
  | f :: fs =>
    match collGetattr c f, collFieldTerms c fs with
    | some v, some rest => some (clean v ++ rest)
    | _, _ => none

/-- The insertion loop of `index`: one `SearchIndex.create` per
non-stop term (each row gets a fresh id), counting the rows written. -/
def insertSearchRows (S : Store) (otype oid : String) : List String → Nat × Store
  | [] => (0, S)
  | t :: ts =>
    if isStopWord t then insertSearchRows S otype oid ts
    else
      let i := (freshId S).1
      let S1 := (freshId S).2
      let row : SearchRow := { id := i, term := t, objectType := otype, objectId := oid }
      let S2 := { S1 with searchIndex := S1.searchIndex ++ [row] }
      let done := insertSearchRows S2 otype oid ts
      (done.1 + 1, done.2)

/-- `SearchIndex.index` on a collection object: the object's type tag is
its class name, `Collection`. -/
def searchIndexColl (S : Store) (c : CollectionRow) (fields : List String) :
    Option (Nat × Store) :=
  match collFieldTerms c fields with
  | none => none
  | some terms => some (insertSearchRows S "Collection" c.id terms)

/-- `Collection.find_by_id`: through the ID index, with the defensive
classname check. -/
def collFindById (S : Store) (idStr : String) : Option CollectionRow :=
  match idIndexFind S idStr with
  | some idx =>
    if idx.classname = "indigo.models.collection.Collection" then collFindByPath S idx.key
    else none
  | none => none

/-- The slice of `Collection.to_dict` the search results carry, plus
the hit count `find` attaches. -/
structure SearchResult where
  id : String
  name : String
  path : String
  hitCount : Nat
deriving DecidableEq, Repr

/-- `get_object` inside `find`: only collections resolve; a dangling
collection reference raises (`find_by_id(...)` returning `None` has no
`to_dict`). -/
def getObject (S : Store) (row : SearchRow) : Except Unit (Option SearchResult) :=
  if row.objectType = "Collection" then
    match collFindById S row.objectId with
    | none => .error ()
    | some c => .ok (some { id := c.id, name := c.name, path := c.path, hitCount := 0 })
  else .ok none

/-- Resolve every hit row, dropping unresolvable types like the
`filter(lambda x: x, results)` step, and propagating the crash. -/
def resolveAll (S : Store) : List SearchRow → Option (List SearchResult)
  | [] => some []
  | r :: rs =>
    match getObject S r, resolveAll S rs with
    | .error _, _ => none
    | .ok none, some rest => some rest
    | .ok (some x), some rest => some (x :: rest)
    | .ok _, none => none

/-- Key set of the grouping step, in first-occurrence order. -/
def dedupKeys : List String → List String
  | [] => []
  | k :: ks => k :: (dedupKeys ks).filter (fun x => !(x == k))

/-- Insert into a descending-by-hit-count list. -/
def insertByHits (x : SearchResult) : List SearchResult → List SearchResult
  | [] => [x]
  | y :: ys => if y.hitCount < x.hitCount then x :: y :: ys else y :: insertByHits x ys

/-- Sort results by descending hit count. -/
def sortByHits : List SearchResult → List SearchResult
  | [] => []
  | x :: xs => insertByHits x (sortByHits xs)

/-- `SearchIndex.find`: look up every non-stop term, resolve, group by
object id with the number of matching rows as hit count, sort. -/
def searchFind (S : Store) (termstrings : List String) : Option (List SearchResult) :=
  let hits := (termstrings.filter (fun t => !isStopWord t)).flatMap
    (fun t => S.searchIndex.filter (fun r => r.term == t))
  match resolveAll S hits with
  | none => none
  | some results =>
    let keys := dedupKeys (results.map (fun r => r.id))
    let out := keys.map (fun k =>
      let ms := results.filter (fun r => r.id == k)
      match ms with
      | [] => { id := k, name := "", path := "", hitCount := 0 }
      | m :: _ => { m with hitCount := ms.length })
    some (sortByHits out)

/-- Root plus a collection named `Test_Object`. -/
def storeT : Store := (collCreate true storeA "/" "Test_Object" []).2

/-- The `Test_Object` collection row. -/
def testObjRow : CollectionRow :=
  ((collCreate true storeA "/" "Test_Object" []).1).toOption.getD
    { id := "", container := "", name := "" }

/-- The count and store that indexing `Test_Object` on `name` yields. -/
def indexedResult : Nat × Store :=
  (searchIndexColl storeT testObjRow ["name"]).getD (0, storeT)

/-- The single expected search hit for `Test_Object`. -/
def expectedHit : SearchResult :=
  { id := testObjRow.id, name := "Test_Object", path := "/Test_Object", hitCount := 1 }

/-- C9: indexing `Test_Object` on `[name]` inserts exactly the terms
`test` and `object` (lower-cased, underscore split, stop words
dropped); `find([test])` returns the object with hit count 1, and
`find([the, test])` returns the same because `the` is a stop word. -/
theorem claim9_search_index_roundtrip :
    (searchIndexColl storeT testObjRow ["name"]) = some (2, indexedResult.2)
    ∧ indexedResult.2.searchIndex.map (fun r => (r.term, r.objectType, r.objectId)) =
        [("test", "Collection", testObjRow.id), ("object", "Collection", testObjRow.id)]
    ∧ searchFind indexedResult.2 ["test"] = some [expectedHit]
    ∧ searchFind indexedResult.2 ["the", "test"] = some [expectedHit] := by decide

end Drastic

namespace Drastic

/-! ## Path lemmas for the cascade delete -/

/-- A usable leaf name: non-empty and free of separators. -/
def goodName (n : String) : Prop := n ≠ "" ∧ ¬ '/' ∈ n.data

/-- A usable container path: the root, or non-empty without a trailing
separator and starting with one. -/
def goodContainer (c : String) : Prop :=
  c = "/" ∨ (c.data.head? = some '/' ∧ c.data.getLast? ≠ some '/')

instance (n : String) : Decidable (goodName n) := by unfold goodName; infer_instance

instance (c : String) : Decidable (goodContainer c) := by unfold goodContainer; infer_instance

lemma takeWhile_append_all {α} (p : α → Bool) (xs l : List α) (h : ∀ x ∈ xs, p x = true) :
    (xs ++ l).takeWhile p = xs ++ l.takeWhile p := by
  induction xs with
  | nil => simp
  | cons a as ih =>
    have ha := h a (by simp)
    simp only [List.cons_append, List.takeWhile_cons, ha]
    rw [ih (fun x hx => h x (by simp [hx]))]
    simp

lemma dropWhile_append_all {α} (p : α → Bool) (xs l : List α) (h : ∀ x ∈ xs, p x = true) :
    (xs ++ l).dropWhile p = l.dropWhile p := by
  induction xs with
  | nil => simp
  | cons a as ih =>
    have ha := h a (by simp)
    simp only [List.cons_append, List.dropWhile_cons, ha]
    exact ih (fun x hx => h x (by simp [hx]))

/-- Good containers never end in the separator unless they are root. -/
lemma endsSlash_eq_false (c : String) (hc : goodContainer c) (hne : c ≠ "/") :
    endsSlash c = false := by
  rcases hc with h | ⟨_, h2⟩
  · exact absurd h hne
  · unfold endsSlash
    simp only [decide_eq_false_iff_not]
    exact h2

/-- Character data of a merged path, non-root container. -/
lemma merge_data (c n : String) (hc : goodContainer c) (hne : c ≠ "/") :
    (merge c n).data = c.data ++ '/' :: n.data := by
  unfold merge
  rw [endsSlash_eq_false c hc hne]
  simp

/-- Character data of a merged path under the root container. -/
lemma merge_data_root (n : String) : (merge "/" n).data = '/' :: n.data := by
  have : endsSlash "/" = true := by decide
  unfold merge
  rw [this]
  simp

/-- Uniform shape: a good merge is `container ++ '/' ++ name` as far as
characters go, the root container contributing just its slash. -/
lemma merge_data_cases (c n : String) (hc : goodContainer c) :
    (merge c n).data = c.data ++ '/' :: n.data ∨
      (c = "/" ∧ (merge c n).data = '/' :: n.data) := by
  by_cases h : c = "/"
  · right
    exact ⟨h, by rw [h, merge_data_root]⟩
  · left
    exact merge_data c n hc h

/-- Splitting undoes merging for good names and containers. -/
lemma split_merge (c n : String) (hn : goodName n) (hc : goodContainer c) :
    split (merge c n) = (c, n) := by
  obtain ⟨hn1, hn2⟩ := hn
  have hall : ∀ x ∈ n.data.reverse, (decide (¬ x = '/')) = true := by
    intro x hx
    simp only [List.mem_reverse] at hx
    simp only [decide_eq_true_eq]
    intro he
    exact hn2 (he ▸ hx)
  have hstop : (decide (¬ '/' = '/')) = false := by decide
  by_cases h : c = "/"
  · subst h
    simp only [split]
    rw [merge_data_root]
    rw [show ('/' :: n.data).reverse = n.data.reverse ++ ['/'] from by simp]
    rw [takeWhile_append_all _ _ _ hall, dropWhile_append_all _ _ _ hall]
    simp [List.takeWhile_cons, List.dropWhile_cons, hstop]
  · have hcne : c.data ≠ [] := by
      rcases hc with h1 | ⟨h2, _⟩
      · exact absurd h1 h
      · intro he
        rw [he] at h2
        simp at h2
    simp only [split]
    rw [merge_data c n hc h]
    rw [show (c.data ++ '/' :: n.data).reverse = n.data.reverse ++ ('/' :: c.data.reverse) from by simp]
    rw [takeWhile_append_all _ _ _ hall, dropWhile_append_all _ _ _ hall]
    simp [List.isEmpty_iff, hcne]

/-- A non-empty string has non-empty character data. -/
lemma data_ne_nil (n : String) (h : n ≠ "") : n.data ≠ [] := by
  intro he
  exact h (String.ext he)

/-- A good merge has at least two characters. -/
lemma merge_data_length (c n : String) (hn : goodName n) (hc : goodContainer c) :
    2 ≤ (merge c n).data.length := by
  have hnn := data_ne_nil n hn.1
  rcases merge_data_cases c n hc with hmd | ⟨hcr, hmd⟩
  · rw [hmd]
    have hcn : c.data.length ≥ 1 := by
      rcases hc with h1 | ⟨h2, _⟩
      · simp [h1]
      · cases hcd : c.data with
        | nil => rw [hcd] at h2; simp at h2
        | cons a as => simp
    simp only [List.length_append, List.length_cons]
    omega
  · rw [hmd]
    cases hnd : n.data with
    | nil => exact absurd hnd hnn
    | cons a as => simp

/-- A good merge is never the root path. -/
lemma merge_ne_root (c n : String) (hn : goodName n) (hc : goodContainer c) :
    merge c n ≠ "/" := by
  intro he
  have := merge_data_length c n hn hc
  rw [he] at this
  simp at this

/-- The container/name growth of paths: merging strictly lengthens. -/
lemma merge_data_length_lt (c n : String) (hn : goodName n) (hc : goodContainer c) :
    c.data.length < (merge c n).data.length := by
  have hnn := data_ne_nil n hn.1
  have hnl : 1 ≤ n.data.length := by
    cases hnd : n.data with
    | nil => exact absurd hnd hnn
    | cons a as => simp
  rcases merge_data_cases c n hc with hmd | ⟨hcr, hmd⟩
  · rw [hmd]
    simp only [List.length_append, List.length_cons]
    omega
  · rw [hmd, hcr]
    have h1 : ("/" : String).data = ['/'] := rfl
    rw [h1]
    simp only [List.length_cons, List.length_nil]
    omega

/-- The path segment a strict descendant must extend. -/
def childPre (p : String) : List Char := if p = "/" then p.data else p.data ++ ['/']

/-- The under-or-equal relation on paths used to delimit a subtree. -/
def underEq (q p : String) : Bool := q == p || (childPre p).isPrefixOf q.data

lemma underEq_iff (q p : String) :
    underEq q p = true ↔ (q = p ∨ childPre p <+: q.data) := by
  unfold underEq
  simp [List.isPrefixOf_iff_prefix]

lemma underEq_refl (q : String) : underEq q q = true := by simp [underEq]

/-- A direct child sits under its container. -/
lemma underEq_merge_self (P n : String) (hP : goodContainer P) :
    underEq (merge P n) P = true := by
  rw [underEq_iff]
  right
  by_cases h : P = "/"
  · subst h
    rw [merge_data_root]
    unfold childPre
    simp only [if_pos rfl]
    exact ⟨n.data, rfl⟩
  · rw [merge_data P n hP h]
    unfold childPre
    rw [if_neg h]
    refine ⟨n.data, ?_⟩
    simp

lemma underEq_trans (a b p : String) (h1 : underEq a b = true) (h2 : underEq b p = true) :
    underEq a p = true := by
  rw [underEq_iff] at h1 h2 ⊢
  rcases h1 with he1 | hp1
  · subst he1
    exact h2
  rcases h2 with he2 | hp2
  · subst he2
    exact .inr hp1
  right
  by_cases hb : b = "/"
  · subst hb
    have : childPre p <+: ['/'] := hp2
    by_cases hp : p = "/"
    · subst hp
      exact (List.prefix_append _ _).trans (by simpa [childPre] using hp1)
    · unfold childPre at this
      rw [if_neg hp] at this
      have hlen := this.length_le
      simp only [List.length_append, List.length_singleton] at hlen
      have hpd : p.data = [] := by
        cases hpd : p.data with
        | nil => rfl
        | cons x xs => rw [hpd] at hlen; simp at hlen
      unfold childPre
      rw [if_neg hp, hpd]
      simp only [List.nil_append]
      simpa [childPre] using hp1
  · have hbp : childPre p <+: childPre b := by
      unfold childPre
      rw [if_neg hb]
      exact hp2.trans (List.prefix_append _ _)
    exact hbp.trans hp1

/-- The last element of a non-empty list exists. -/
lemma getLast?_cons_ne_none {α : Type} (a : α) (as : List α) : (a :: as).getLast? ≠ none := by
  induction as generalizing a with
  | nil => simp
  | cons b bs ih => rw [List.getLast?_cons_cons]; exact ih b

/-- Strictly-under paths are strictly longer. -/
lemma underEq_strict_len (a b : String) (h : underEq a b = true) (hne : a ≠ b) :
    b.data.length < a.data.length := by
  rw [underEq_iff] at h
  rcases h with he | hp
  · exact absurd he hne
  by_cases hb : b = "/"
  · subst hb
    have h2 : (childPre "/") = ['/'] := rfl
    rw [h2] at hp
    have h1 : (['/'] : List Char).length ≤ a.data.length := hp.length_le
    simp only [List.length_singleton] at h1
    have h3 : ("/" : String).data.length = 1 := by decide
    rw [h3]
    rcases Nat.lt_or_ge 1 a.data.length with hgt | hle
    · exact hgt
    · exfalso
      have hlen : a.data.length = 1 := Nat.le_antisymm hle h1
      obtain ⟨t, ht⟩ := hp
      have hlt := congrArg List.length ht
      simp only [List.length_append, List.length_singleton] at hlt
      rw [hlen] at hlt
      have htnil : t = [] := by
        cases t with
        | nil => rfl
        | cons x xs => simp at hlt
      rw [htnil] at ht
      simp only [List.append_nil] at ht
      exact hne (String.ext ht.symm)
  · have h1 : (childPre b).length ≤ a.data.length := hp.length_le
    unfold childPre at h1
    rw [if_neg hb] at h1
    simp only [List.length_append, List.length_singleton] at h1
    omega

/-- Well-formedness of the namespace store contents: the root flag
matches the root key, collection keys are unique, non-root rows have
usable names and containers and an existing parent, resources have
usable names, existing containers and collision-free paths, and ID
index identifiers are unique. -/
def WFparts (colls : List CollectionRow) (ress : List ResourceRow)
    (idx : List IdIndexRow) : Prop :=
  (∀ c ∈ colls, c.isRoot = true ↔ (c.container = "null" ∧ c.name = "Home"))
  ∧ (colls.map (fun c => (c.container, c.name))).Nodup
  ∧ (∀ c ∈ colls, c.isRoot = false → goodName c.name ∧ goodContainer c.container)
  ∧ (∀ c ∈ colls, c.isRoot = false → ∃ q ∈ colls, q.path = c.container)
  ∧ (∀ r ∈ ress, goodName r.name ∧ ∃ q ∈ colls, q.path = r.container)
  ∧ (∀ r ∈ ress, ∀ c ∈ colls, r.path ≠ c.path)
  ∧ (idx.map (fun e => e.id)).Nodup

/-- A well-formed store. -/
def WF (S : Store) : Prop := WFparts S.collections S.resources S.idIndex

instance (S : Store) : Decidable (WF S) := by unfold WF WFparts; infer_instance

/-- Non-root paths of well-formed rows are never the root path. -/
lemma path_ne_root (c : CollectionRow) (hroot : c.isRoot = false)
    (hg : goodName c.name ∧ goodContainer c.container) : c.path ≠ "/" := by
  unfold CollectionRow.path
  rw [hroot]
  simp only [Bool.false_eq_true, if_false]
  exact merge_ne_root c.container c.name hg.1 hg.2

/-- An append ending in a clean name does not end in a separator. -/
lemma getLast_append_name_ne_slash (l : List Char) (nm : String)
    (hnn : nm.data ≠ []) (hns : ¬ '/' ∈ nm.data) :
    (l ++ nm.data).getLast? ≠ some '/' := by
  intro hcon
  rw [List.getLast?_append] at hcon
  cases hnd : nm.data with
  | nil => exact hnn hnd
  | cons a as =>
    rw [hnd] at hcon
    rcases ho : (a :: as).getLast? with _ | x
    · exact getLast?_cons_ne_none a as ho
    · rw [ho] at hcon
      rw [show (some x).or l.getLast? = some x from rfl] at hcon
      cases hcon
      have : '/' ∈ a :: as := List.mem_of_mem_getLast? (by rw [ho]; rfl)
      rw [← hnd] at this
      exact hns this

/-- The path of a well-formed row is itself a good container. -/
lemma path_goodContainer (c : CollectionRow)
    (hg : c.isRoot = false → goodName c.name ∧ goodContainer c.container) :
    goodContainer c.path := by
  unfold CollectionRow.path
  by_cases hroot : c.isRoot
  · rw [hroot]
    simp only [if_true]
    exact .inl rfl
  · have hb : c.isRoot = false := by
      cases h : c.isRoot
      · rfl
      · exact absurd h hroot
    obtain ⟨hn, hc⟩ := hg hb
    rw [hb]
    simp only [Bool.false_eq_true, if_false]
    right
    have hnn := data_ne_nil c.name hn.1
    rcases merge_data_cases c.container c.name hc with hmd | ⟨hcr, hmd⟩
    · have hcd : c.container.data ≠ [] := by
        rcases hc with h1 | ⟨h2, _⟩
        · rw [h1]; decide
        · intro he
          rw [he] at h2
          simp at h2
      constructor
      · rw [hmd, List.head?_append]
        cases hcc : c.container.data with
        | nil => exact absurd hcc hcd
        | cons a as =>
          have ha : a = '/' := by
            rcases hc with h1 | ⟨h2, _⟩
            · rw [h1] at hcc
              cases hcc
              rfl
            · rw [hcc] at h2
              simp at h2
              exact h2
          simp [ha]
      · rw [hmd]
        have : c.container.data ++ '/' :: c.name.data = (c.container.data ++ ['/']) ++ c.name.data := by
          simp
        rw [this]
        exact getLast_append_name_ne_slash _ c.name hnn hn.2
    · constructor
      · rw [hmd]
        simp
      · rw [hmd]
        have : ('/' :: c.name.data) = ['/'] ++ c.name.data := rfl
        rw [this]
        exact getLast_append_name_ne_slash _ c.name hnn hn.2

/-- When all rows matching a predicate share the key of a listed row
and keys are unique, `find?` returns that row. -/
lemma find?_unique {α : Type} (key : α → String × String) :
    ∀ (l : List α), (l.map key).Nodup → ∀ (x : α), x ∈ l → ∀ (p : α → Bool), p x = true →
      (∀ y ∈ l, p y = true → key y = key x) → l.find? p = some x := by
  intro l
  induction l with
  | nil =>
    intro _ x hx
    cases hx
  | cons a as ih =>
    intro hnd x hx p hpx hcompat
    by_cases hpa : p a = true
    · rw [List.find?_cons_of_pos _ hpa]
      have hkey : key a = key x := hcompat a (by simp) hpa
      rcases List.mem_cons.mp hx with he | hxs
      · rw [he]
      · exfalso
        simp only [List.map_cons, List.nodup_cons] at hnd
        exact hnd.1 (hkey ▸ List.mem_map_of_mem key hxs)
    · rw [List.find?_cons_of_neg _ hpa]
      have hxa : x ≠ a := fun he => hpa (he ▸ hpx)
      have hxs : x ∈ as := by
        rcases List.mem_cons.mp hx with he | hxs
        · exact absurd he hxa
        · exact hxs
      simp only [List.map_cons, List.nodup_cons] at hnd
      exact ih hnd.2 x hxs p hpx (fun y hy hpy => hcompat y (by simp [hy]) hpy)

/-- Paths identify rows in a well-formed collection list. -/
lemma path_inj (colls : List CollectionRow)
    (hroot : ∀ c ∈ colls, c.isRoot = true ↔ (c.container = "null" ∧ c.name = "Home"))
    (hnd : (colls.map fun c => (c.container, c.name)).Nodup)
    (hgood : ∀ c ∈ colls, c.isRoot = false → goodName c.name ∧ goodContainer c.container)
    (c1 c2 : CollectionRow) (h1 : c1 ∈ colls) (h2 : c2 ∈ colls) (hp : c1.path = c2.path) :
    c1 = c2 := by
  have hkey : (c1.container, c1.name) = (c2.container, c2.name) := by
    cases hr1 : c1.isRoot <;> cases hr2 : c2.isRoot
    · have e1 : c1.path = merge c1.container c1.name := by
        unfold CollectionRow.path
        rw [hr1]
        simp
      have e2 : c2.path = merge c2.container c2.name := by
        unfold CollectionRow.path
        rw [hr2]
        simp
      have := congrArg split (e1 ▸ e2 ▸ hp)
      rw [split_merge c1.container c1.name (hgood c1 h1 hr1).1 (hgood c1 h1 hr1).2,
        split_merge c2.container c2.name (hgood c2 h2 hr2).1 (hgood c2 h2 hr2).2] at this
      exact this
    · exfalso
      have e2 : c2.path = "/" := by
        unfold CollectionRow.path
        rw [hr2]
        simp
      exact path_ne_root c1 hr1 (hgood c1 h1 hr1) (hp.trans e2)
    · exfalso
      have e1 : c1.path = "/" := by
        unfold CollectionRow.path
        rw [hr1]
        simp
      exact path_ne_root c2 hr2 (hgood c2 h2 hr2) (hp.symm.trans e1)
    · have k1 := (hroot c1 h1).mp hr1
      have k2 := (hroot c2 h2).mp hr2
      rw [k1.1, k1.2, k2.1, k2.2]
  exact List.inj_on_of_nodup_map hnd h1 h2 hkey

/-- `find_by_path` finds every listed row at its own path in a
well-formed store. -/
lemma collFindByPath_self (S : Store) (hwf : WF S) (c : CollectionRow)
    (hc : c ∈ S.collections) : collFindByPath S c.path = some c := by
  obtain ⟨hroot, hnd, hgood, _⟩ := hwf
  by_cases hr : c.isRoot
  · have hpath : c.path = "/" := by
      unfold CollectionRow.path
      rw [hr]
      simp
    have hkeys := (hroot c hc).mp hr
    rw [hpath]
    unfold collFindByPath getRootCollection
    rw [if_pos rfl]
    refine find?_unique (fun y => (y.container, y.name)) S.collections hnd c hc _ ?_ ?_
    · simp [hkeys.1, hkeys.2]
    · intro y _ hy
      simp only [Bool.and_eq_true, beq_iff_eq] at hy
      simp [hy.1, hy.2, hkeys.1, hkeys.2]
  · have hb : c.isRoot = false := by
      cases h : c.isRoot
      · rfl
      · exact absurd h hr
    obtain ⟨hn, hcont⟩ := hgood c hc hb
    have hpath : c.path = merge c.container c.name := by
      unfold CollectionRow.path
      rw [hb]
      simp
    have hnr : c.path ≠ "/" := path_ne_root c hb ⟨hn, hcont⟩
    unfold collFindByPath
    rw [if_neg hnr, hpath, split_merge c.container c.name hn hcont]
    refine find?_unique (fun y => (y.container, y.name)) S.collections hnd c hc _ ?_ ?_
    · simp
    · intro y _ hy
      simp only [Bool.and_eq_true, beq_iff_eq] at hy
      simp [hy.1, hy.2]

/-- Decomposing the under relation along a merge: a path under `p` is
either `p` itself or its container is under `p`. -/
lemma under_merge (c n p : String) (hn : goodName n) (hc : goodContainer c)
    (h : underEq (merge c n) p = true) : merge c n = p ∨ underEq c p = true := by
  rw [underEq_iff] at h
  rcases h with he | hpre
  · exact .inl he
  right
  by_cases hp : p = "/"
  · subst hp
    rw [underEq_iff]
    rcases hc with h1 | ⟨h2, _⟩
    · exact .inl h1
    · right
      cases hcc : c.data with
      | nil => rw [hcc] at h2; simp at h2
      | cons a as =>
        rw [hcc] at h2
        simp only [List.head?_cons, Option.some_inj] at h2
        rw [show childPre "/" = ['/'] from rfl, h2]
        exact ⟨as, by simp⟩
  · have hcp : childPre p = p.data ++ ['/'] := by
      unfold childPre
      rw [if_neg hp]
    rw [hcp] at hpre
    by_cases hcr : c = "/"
    · subst hcr
      rw [merge_data_root] at hpre
      cases hpd : p.data with
      | nil =>
        rw [underEq_iff]
        right
        rw [hcp, hpd]
        simp only [List.nil_append]
        exact ⟨[], rfl⟩
      | cons x xs =>
        exfalso
        rw [hpd] at hpre
        obtain ⟨t, ht⟩ := hpre
        have hx : x = '/' := by
          have hh := congrArg List.head? ht
          simpa using hh
        have ht2 : '/' :: ((xs ++ ['/']) ++ t) = '/' :: n.data := by
          rw [← ht, hx]
          simp
        have htail : (xs ++ ['/']) ++ t = n.data := by
          injection ht2
        have hmm : '/' ∈ n.data := by
          rw [← htail]
          simp
        exact hn.2 hmm
    · have hmd : (merge c n).data = (c.data ++ ['/']) ++ n.data := by
        rw [merge_data c n hc hcr]
        simp
      rw [hmd] at hpre
      by_cases heq : p.data ++ ['/'] = c.data ++ ['/']
      · have hpc : p.data = c.data := List.append_cancel_right heq
        rw [underEq_iff]
        exact .inl (String.ext hpc).symm
      rcases List.prefix_or_prefix_of_prefix hpre
          (List.prefix_append (c.data ++ ['/']) n.data) with hAB | hBA
      · have hlt : (p.data ++ ['/']).length < (c.data ++ ['/']).length := by
          have hle := hAB.length_le
          rcases Nat.lt_or_ge (p.data ++ ['/']).length (c.data ++ ['/']).length with h1 | h1
          · exact h1
          · exact absurd (hAB.eq_of_length (Nat.le_antisymm hle h1)) heq
        have hle2 : (p.data ++ ['/']).length ≤ c.data.length := by
          simp only [List.length_append, List.length_singleton] at hlt ⊢
          omega
        have hpf : p.data ++ ['/'] <+: c.data :=
          List.prefix_of_prefix_length_le hAB (List.prefix_append c.data ['/']) hle2
        rw [underEq_iff]
        right
        rw [hcp]
        exact hpf
      · exfalso
        obtain ⟨rest, hrest⟩ := hBA
        have hrne : rest ≠ [] := by
          intro h0
          rw [h0, List.append_nil] at hrest
          exact heq hrest.symm
        have hrpre : rest <+: n.data := by
          have hh : (c.data ++ ['/']) ++ rest <+: (c.data ++ ['/']) ++ n.data := by
            rw [hrest]
            exact hpre
          exact (List.prefix_append_right_inj (c.data ++ ['/'])).mp hh
        have hgA : (p.data ++ ['/']).getLast? = some '/' := List.getLast?_concat _
        rw [← hrest, List.getLast?_append] at hgA
        cases hr : rest with
        | nil => exact hrne hr
        | cons y ys =>
          rw [hr] at hgA
          rcases ho : (y :: ys).getLast? with _ | z
          · exact getLast?_cons_ne_none y ys ho
          · rw [ho] at hgA
            rw [show (some z).or (c.data ++ ['/']).getLast? = some z from rfl] at hgA
            cases hgA
            have hz : '/' ∈ y :: ys := List.mem_of_mem_getLast? (by rw [ho]; rfl)
            have hmm : '/' ∈ n.data := hrpre.subset (hr ▸ hz)
            exact hn.2 hmm

/-- A collection row aliasing the path `/a/` through container `/a` and
an empty name. -/
def aliasRowA : CollectionRow := { id := "c1", container := "/a", name := "" }

/-- A self-referential row: its container equals its own full path. -/
def aliasRowB : CollectionRow := { id := "c2", container := "/a/", name := "" }

/-- The corrupt store state with the two aliasing rows. -/
def aliasStore : Store := { emptyStore with collections := [aliasRowA, aliasRowB] }

/-- `delete_all` diverges on a store and path: no amount of fuel
finishes the recursion. -/
def deleteAllDiverges (S : Store) (p : String) : Prop :=
  ∀ n, deleteAllFuel true n S p = none

/-- One unfolding step of `delete_all` on the aliasing store: the
recursion re-enters the same path on the same store. -/
lemma deleteAllFuel_aliasStore_step (n : Nat) :
    deleteAllFuel true (n + 1) aliasStore "/a/" =
      match deleteAllFuel true n aliasStore "/a/" with
      | none => none
      | some (Except.error e, T) => some (Except.error e, T)
      | some (Except.ok _, S2) => some (collDelete true S2 aliasRowA) := by
  have h1 : deleteAllFuel true (n + 1) aliasStore "/a/" =
      match deleteAllGoList (deleteAllFuel true n) aliasStore [aliasRowB] with
      | none => none
      | some (Except.error e, S2) => some (Except.error e, S2)
      | some (Except.ok _, S2) => some (collDelete true S2 aliasRowA) := rfl
  have h2 : deleteAllGoList (deleteAllFuel true n) aliasStore [aliasRowB] =
      match deleteAllFuel true n aliasStore "/a/" with
      | none => none
      | some (Except.error e, T1) => some (Except.error e, T1)
      | some (Except.ok _, T1) => some (.ok (), T1) := by
    have hb : aliasRowB.path = "/a/" := rfl
    show (match deleteAllFuel true n aliasStore aliasRowB.path with
      | none => none
      | some (Except.error e, T1) => some (Except.error e, T1)
      | some (Except.ok _, T1) => deleteAllGoList (deleteAllFuel true n) T1 []) = _
    rw [hb]
    cases hx : deleteAllFuel true n aliasStore "/a/" with
    | none => rfl
    | some v =>
      rcases v with ⟨res, T1⟩
      cases res <;> rfl
  rw [h1, h2]
  cases hx : deleteAllFuel true n aliasStore "/a/" with
  | none => rfl
  | some v =>
    rcases v with ⟨res, T1⟩
    cases res <;> rfl

/-- C6 counterexample: on a store state holding a self-referential
container/name pair (`aliasRowB.container` resolves back to its own
path `/a/`), `delete_all("/a/")` recurses forever instead of aborting:
no fuel bound terminates it. -/
theorem claim6_counterexample :
    deleteAllDiverges aliasStore "/a/"
    ∧ aliasRowB ∈ aliasStore.collections
    ∧ aliasRowB.container = aliasRowB.path := by
  refine ⟨?_, by decide, by decide⟩
  intro n
  induction n with
  | zero => rfl
  | succ n ih => rw [deleteAllFuel_aliasStore_step, ih]

/-- The number of collections at or under a path. -/
def szUnder (S : Store) (p : String) : Nat :=
  (S.collections.filter (fun c => underEq c.path p)).length

/-- A resource delete with the transport up succeeds. -/
lemma resDelete_true_fst (S : Store) (r : ResourceRow) :
    (resDelete true S r).1 = .ok () := rfl

/-- Effect of a successful resource delete on each store component. -/
lemma resDelete_true_snd (S : Store) (r : ResourceRow) :
    (resDelete true S r).2.collections = S.collections
    ∧ (resDelete true S r).2.resources = S.resources.filter
        (fun x => !(x.container == r.container && x.name == r.name))
    ∧ (resDelete true S r).2.idIndex = S.idIndex
    ∧ (resDelete true S r).2.searchIndex = S.searchIndex
    ∧ (resDelete true S r).2.nextId = S.nextId
    ∧ (resDelete true S r).2.clock = S.clock :=
  ⟨rfl, rfl, rfl, rfl, rfl, rfl⟩

/-- The store right after the delete notification went out. -/
def afterDeletePublish (S : Store) (c : CollectionRow) : Store :=
  { S with notifications := S.notifications ++ [{ topic := collTopic "delete" c, op := "delete" }] }

/-- The conditional ID index removal step inside `Collection.delete`. -/
def idxStep (T : Store) (i : String) : Store :=
  match idIndexFind T i with
  | some idx => idIndexDelete T idx
  | none => T

/-- A successful collection delete, as publish then index step then row
removal. -/
lemma collDelete_true_eq (S : Store) (c : CollectionRow) :
    collDelete true S c = (.ok (), collRemove (idxStep (afterDeletePublish S c) c.id) c) := rfl

lemma idxStep_collections (T : Store) (i : String) :
    (idxStep T i).collections = T.collections := by
  unfold idxStep
  cases idIndexFind T i <;> rfl

lemma idxStep_resources (T : Store) (i : String) :
    (idxStep T i).resources = T.resources := by
  unfold idxStep
  cases idIndexFind T i <;> rfl

lemma idxStep_searchIndex (T : Store) (i : String) :
    (idxStep T i).searchIndex = T.searchIndex := by
  unfold idxStep
  cases idIndexFind T i <;> rfl

lemma idxStep_nextId (T : Store) (i : String) : (idxStep T i).nextId = T.nextId := by
  unfold idxStep
  cases idIndexFind T i <;> rfl

lemma idxStep_clock (T : Store) (i : String) : (idxStep T i).clock = T.clock := by
  unfold idxStep
  cases idIndexFind T i <;> rfl

/-- The index step removes exactly the entries carrying the id. -/
lemma idxStep_idIndex (T : Store) (i : String) :
    (idxStep T i).idIndex = T.idIndex.filter (fun e => !(e.id == i)) := by
  unfold idxStep
  cases hidx : idIndexFind T i with
  | none =>
    unfold idIndexFind at hidx
    rw [List.find?_eq_none] at hidx
    have he : T.idIndex.filter (fun e => !(e.id == i)) = T.idIndex := by
      rw [List.filter_eq_self]
      intro e hemem
      have h2 := hidx e hemem
      simp only [Bool.not_eq_true] at h2 ⊢
      rw [h2]
      rfl
    rw [he]
  | some idx =>
    unfold idIndexFind at hidx
    have hpred := List.find?_some hidx
    simp only [beq_iff_eq] at hpred
    unfold idIndexDelete
    dsimp only
    rw [hpred]

/-- A collection delete with the transport up succeeds. -/
lemma collDelete_true_fst (S : Store) (c : CollectionRow) :
    (collDelete true S c).1 = .ok () := by
  rw [collDelete_true_eq]

/-- The collection list after a successful collection delete. -/
lemma collDelete_true_collections (S : Store) (c : CollectionRow) :
    (collDelete true S c).2.collections = S.collections.filter
      (fun x => !(x.container == c.container && x.name == c.name)) := by
  rw [collDelete_true_eq]
  show (collRemove (idxStep (afterDeletePublish S c) c.id) c).collections = _
  unfold collRemove
  dsimp only
  rw [idxStep_collections]
  rfl

/-- Resources are untouched by a collection delete. -/
lemma collDelete_true_resources (S : Store) (c : CollectionRow) :
    (collDelete true S c).2.resources = S.resources := by
  rw [collDelete_true_eq]
  show (collRemove (idxStep (afterDeletePublish S c) c.id) c).resources = _
  unfold collRemove
  dsimp only
  rw [idxStep_resources]
  rfl

/-- The ID index after a successful collection delete: every entry
carrying the collection's id is gone. -/
lemma collDelete_true_idIndex (S : Store) (c : CollectionRow) :
    (collDelete true S c).2.idIndex = S.idIndex.filter (fun e => !(e.id == c.id)) := by
  rw [collDelete_true_eq]
  show (collRemove (idxStep (afterDeletePublish S c) c.id) c).idIndex = _
  unfold collRemove
  dsimp only
  rw [idxStep_idIndex]
  rfl

/-- Remaining components untouched by a collection delete. -/
lemma collDelete_true_rest (S : Store) (c : CollectionRow) :
    (collDelete true S c).2.searchIndex = S.searchIndex
    ∧ (collDelete true S c).2.nextId = S.nextId
    ∧ (collDelete true S c).2.clock = S.clock := by
  rw [collDelete_true_eq]
  refine ⟨?_, ?_, ?_⟩ <;>
    · unfold collRemove
      dsimp only
      first
      | rw [idxStep_searchIndex]; rfl
      | rw [idxStep_nextId]; rfl
      | rw [idxStep_clock]; rfl

/-- Filtering with a weaker predicate keeps at least as many elements. -/
lemma length_filter_le_of_imp {α : Type} :
    ∀ (l : List α) (q r : α → Bool), (∀ x ∈ l, q x = true → r x = true) →
      (l.filter q).length ≤ (l.filter r).length := by
  intro l
  induction l with
  | nil => intro q r h; simp
  | cons a as ih =>
    intro q r h
    have htail := ih q r (fun x hx => h x (by simp [hx]))
    cases hqa : q a with
    | true =>
      have hra := h a (by simp) hqa
      rw [List.filter_cons_of_pos hqa, List.filter_cons_of_pos hra]
      simpa using htail
    | false =>
      rw [List.filter_cons_of_neg (by simp [hqa])]
      cases hra : r a with
      | true =>
        rw [List.filter_cons_of_pos hra]
        simp only [List.length_cons]
        omega
      | false =>
        rw [List.filter_cons_of_neg (by simp [hra])]
        exact htail

/-- Filtering with a strictly weaker predicate, witnessed by one
element, keeps strictly more elements. -/
lemma length_filter_lt_of_imp {α : Type} :
    ∀ (l : List α) (q r : α → Bool), (∀ x ∈ l, q x = true → r x = true) →
      ∀ x, x ∈ l → r x = true → q x = false →
      (l.filter q).length < (l.filter r).length := by
  intro l
  induction l with
  | nil =>
    intro q r h x hx
    cases hx
  | cons a as ih =>
    intro q r h x hx hrx hqx
    by_cases hax : a = x
    · subst hax
      rw [List.filter_cons_of_neg (by simp [hqx]), List.filter_cons_of_pos hrx]
      have := length_filter_le_of_imp as q r (fun y hy => h y (by simp [hy]))
      simp only [List.length_cons]
      omega
    · have hxs : x ∈ as := by
        rcases List.mem_cons.mp hx with he | hm
        · exact absurd he.symm hax
        · exact hm
      have htail := ih q r (fun y hy => h y (by simp [hy])) x hxs hrx hqx
      cases hqa : q a with
      | true =>
        have hra := h a (by simp) hqa
        rw [List.filter_cons_of_pos hqa, List.filter_cons_of_pos hra]
        simpa using htail
      | false =>
        rw [List.filter_cons_of_neg (by simp [hqa])]
        cases hra : r a with
        | true =>
          rw [List.filter_cons_of_pos hra]
          simp only [List.length_cons]
          omega
        | false =>
          rw [List.filter_cons_of_neg (by simp [hra])]
          exact htail

/-- The resource-deletion loop of `delete_all`, run on exactly the
resources sitting in container `P`, empties that container and touches
nothing else. -/
lemma delResources_removes (P : String) :
    ∀ (rss : List ResourceRow) (S : Store),
      (∀ r ∈ rss, r.container = P) →
      (∀ r ∈ S.resources, r.container = P → r ∈ rss) →
      (delResources true S rss).1 = .ok ()
      ∧ (delResources true S rss).2.collections = S.collections
      ∧ (delResources true S rss).2.resources =
          S.resources.filter (fun x => !(x.container == P))
      ∧ (delResources true S rss).2.idIndex = S.idIndex
      ∧ (delResources true S rss).2.searchIndex = S.searchIndex
      ∧ (delResources true S rss).2.nextId = S.nextId
      ∧ (delResources true S rss).2.clock = S.clock := by
  intro rss
  induction rss with
  | nil =>
    intro S hall hcov
    refine ⟨rfl, rfl, ?_, rfl, rfl, rfl, rfl⟩
    have he : S.resources.filter (fun x => !(x.container == P)) = S.resources := by
      rw [List.filter_eq_self]
      intro r hr
      simp only [Bool.not_eq_eq_eq_not, Bool.not_true, beq_eq_false_iff_ne, ne_eq]
      intro hcon
      exact absurd (hcov r hr hcon) (List.not_mem_nil r)
    rw [he]
    rfl
  | cons r0 rs ih =>
    intro S hall hcov
    have hstep : delResources true S (r0 :: rs) =
        delResources true ((resDelete true S r0).2) rs := rfl
    have hT0 := resDelete_true_snd S r0
    have hr0P : r0.container = P := hall r0 (by simp)
    have hresT0 : (resDelete true S r0).2.resources =
        S.resources.filter (fun x => !(x.container == r0.container && x.name == r0.name)) :=
      hT0.2.1
    have hcov2 : ∀ r ∈ (resDelete true S r0).2.resources, r.container = P → r ∈ rs := by
      intro r hr hrP
      rw [hresT0] at hr
      have hmem := List.mem_of_mem_filter hr
      have hpred := List.of_mem_filter hr
      rcases List.mem_cons.mp (hcov r hmem hrP) with he | hm
      · exfalso
        subst he
        simp at hpred
      · exact hm
    have hrec := ih ((resDelete true S r0).2) (fun r hr => hall r (by simp [hr])) hcov2
    rw [hstep]
    refine ⟨hrec.1, ?_, ?_, ?_, ?_, ?_, ?_⟩
    · rw [hrec.2.1, hT0.1]
    · rw [hrec.2.2.1, hresT0, List.filter_filter]
      apply List.filter_congr
      intro x _
      cases hxc : (x.container == P) with
      | true => simp
      | false =>
        have hne : (x.container == r0.container) = false := by
          simp only [beq_eq_false_iff_ne, ne_eq] at hxc ⊢
          rw [hr0P]
          exact hxc
        simp [hne]
    · rw [hrec.2.2.2.1, hT0.2.2.1]
    · rw [hrec.2.2.2.2.1, hT0.2.2.2.1]
    · rw [hrec.2.2.2.2.2.1, hT0.2.2.2.2.1]
    · rw [hrec.2.2.2.2.2.2, hT0.2.2.2.2.2]

/-- Membership in the child list means listed with the parent's path as
container. -/
lemma mem_childCollections (S : Store) (c0 ci : CollectionRow) :
    ci ∈ childCollections S c0 ↔ (ci ∈ S.collections ∧ ci.container = c0.path) := by
  unfold childCollections
  rw [List.mem_filter]
  simp [beq_iff_eq]

/-- A path is never the string `null` (the root sentinel container). -/
lemma path_ne_null (c0 : CollectionRow)
    (hg : c0.isRoot = false → goodName c0.name ∧ goodContainer c0.container) :
    c0.path ≠ "null" := by
  have hgc := path_goodContainer c0 hg
  rcases hgc with h1 | ⟨h2, _⟩
  · rw [h1]
    decide
  · intro he
    rw [he] at h2
    simp at h2

/-- A row whose container is another row's path is not the root. -/
lemma child_isRoot_false (S : Store) (hwf : WF S) (c0 ci : CollectionRow)
    (h0 : c0 ∈ S.collections) (hi : ci ∈ S.collections) (hcont : ci.container = c0.path) :
    ci.isRoot = false := by
  have hroot := hwf.1
  have hgood := hwf.2.2.1
  cases hr : ci.isRoot
  · rfl
  · exfalso
    have hk := (hroot ci hi).mp hr
    rw [hk.1] at hcont
    exact path_ne_null c0 (hgood c0 h0) hcont.symm

/-- The path of a non-root row, written through merge. -/
lemma path_eq_merge (c : CollectionRow) (hb : c.isRoot = false) :
    c.path = merge c.container c.name := by
  unfold CollectionRow.path
  rw [hb]
  simp

/-- A child sits strictly deeper than its parent. -/
lemma child_path_longer (S : Store) (hwf : WF S) (c0 ci : CollectionRow)
    (h0 : c0 ∈ S.collections) (hi : ci ∈ S.collections) (hcont : ci.container = c0.path) :
    c0.path.data.length < ci.path.data.length := by
  have hgood := hwf.2.2.1
  have hb := child_isRoot_false S hwf c0 ci h0 hi hcont
  rw [path_eq_merge ci hb, hcont]
  exact merge_data_length_lt c0.path ci.name (hgood ci hi hb).1
    (path_goodContainer c0 (hgood c0 h0))

/-- A child is under its parent. -/
lemma child_under (S : Store) (hwf : WF S) (c0 ci : CollectionRow)
    (h0 : c0 ∈ S.collections) (hi : ci ∈ S.collections) (hcont : ci.container = c0.path) :
    underEq ci.path c0.path = true := by
  have hgood := hwf.2.2.1
  have hb := child_isRoot_false S hwf c0 ci h0 hi hcont
  rw [path_eq_merge ci hb, hcont]
  exact underEq_merge_self c0.path ci.name (path_goodContainer c0 (hgood c0 h0))

/-- A parent is never under one of its children. -/
lemma parent_not_under_child (S : Store) (hwf : WF S) (c0 ci : CollectionRow)
    (h0 : c0 ∈ S.collections) (hi : ci ∈ S.collections) (hcont : ci.container = c0.path) :
    underEq c0.path ci.path = false := by
  have hlong := child_path_longer S hwf c0 ci h0 hi hcont
  cases hu : underEq c0.path ci.path
  · rfl
  · exfalso
    by_cases he : c0.path = ci.path
    · rw [he] at hlong
      omega
    · have := underEq_strict_len c0.path ci.path hu he
      omega

/-- Distinct children of one parent are never nested. -/
lemma children_not_nested (S : Store) (hwf : WF S) (c0 ci cj : CollectionRow)
    (h0 : c0 ∈ S.collections) (hi : ci ∈ childCollections S c0)
    (hj : cj ∈ childCollections S c0) (hne : ci ≠ cj) :
    underEq cj.path ci.path = false := by
  obtain ⟨hic, hicont⟩ := (mem_childCollections S c0 ci).mp hi
  obtain ⟨hjc, hjcont⟩ := (mem_childCollections S c0 cj).mp hj
  have hnd := hwf.2.1
  have hgood := hwf.2.2.1
  have hbi := child_isRoot_false S hwf c0 ci h0 hic hicont
  have hbj := child_isRoot_false S hwf c0 cj h0 hjc hjcont
  cases hu : underEq cj.path ci.path
  · rfl
  · exfalso
    rw [path_eq_merge cj hbj, hjcont] at hu
    rcases under_merge c0.path cj.name ci.path (hgood cj hjc hbj).1
        (path_goodContainer c0 (hgood c0 h0)) hu with heq | hunder
    · have hpi : ci.path = merge c0.path ci.name := by
        rw [path_eq_merge ci hbi, hicont]
      rw [hpi] at heq
      have := congrArg split heq
      rw [split_merge c0.path cj.name (hgood cj hjc hbj).1 (path_goodContainer c0 (hgood c0 h0)),
        split_merge c0.path ci.name (hgood ci hic hbi).1
          (path_goodContainer c0 (hgood c0 h0))] at this
      have hname : cj.name = ci.name := congrArg Prod.snd this
      have hkey : (cj.container, cj.name) = (ci.container, ci.name) := by
        rw [hjcont, hicont, hname]
      exact hne (List.inj_on_of_nodup_map hnd hic hjc hkey.symm)
    · rw [parent_not_under_child S hwf c0 ci h0 hic hicont] at hunder
      cases hunder

/-- Good containers are non-empty strings. -/
lemma goodContainer_len (p : String) (h : goodContainer p) : 1 ≤ p.data.length := by
  rcases h with h1 | ⟨h2, _⟩
  · rw [h1]
    decide
  · cases hpd : p.data with
    | nil => rw [hpd] at h2; simp at h2
    | cons a as => simp

/-- Every collection strictly inside a subtree lies under one of the
subtree root's direct children (key decomposition of the cascade). -/
lemma under_children (S : Store) (hwf : WF S) (c0 : CollectionRow)
    (h0 : c0 ∈ S.collections) :
    ∀ (m : Nat) (Q : CollectionRow), Q ∈ S.collections → Q.path.data.length ≤ m →
      underEq Q.path c0.path = true →
      Q = c0 ∨ ∃ ci ∈ childCollections S c0, underEq Q.path ci.path = true := by
  have hroot := hwf.1
  have hnd := hwf.2.1
  have hgood := hwf.2.2.1
  have hpar := hwf.2.2.2.1
  intro m
  induction m with
  | zero =>
    intro Q hQ hlen hund
    by_cases heq : Q.path = c0.path
    · exact .inl (path_inj S.collections hroot hnd hgood Q c0 hQ h0 heq)
    · exfalso
      have := underEq_strict_len Q.path c0.path hund heq
      omega
  | succ m ih =>
    intro Q hQ hlen hund
    by_cases heq : Q.path = c0.path
    · exact .inl (path_inj S.collections hroot hnd hgood Q c0 hQ h0 heq)
    · have hQb : Q.isRoot = false := by
        cases hr : Q.isRoot
        · rfl
        · exfalso
          have hQp : Q.path = "/" := by
            unfold CollectionRow.path
            rw [hr]
            simp
          have hstrict := underEq_strict_len Q.path c0.path hund heq
          rw [hQp] at hstrict
          have h1 : ("/" : String).data.length = 1 := by decide
          have h2 : 1 ≤ c0.path.data.length :=
            goodContainer_len c0.path (path_goodContainer c0 (hgood c0 h0))
          omega
      obtain ⟨hn, hc⟩ := hgood Q hQ hQb
      have hup : underEq Q.container c0.path = true := by
        have h2 := hund
        rw [path_eq_merge Q hQb] at h2
        rcases under_merge Q.container Q.name c0.path hn hc h2 with he | hu
        · exact absurd ((path_eq_merge Q hQb).trans he) heq
        · exact hu
      by_cases hdirect : Q.container = c0.path
      · right
        refine ⟨Q, (mem_childCollections S c0 Q).mpr ⟨hQ, hdirect⟩, underEq_refl Q.path⟩
      · obtain ⟨q1, hq1, hq1p⟩ := hpar Q hQ hQb
        have hq1und : underEq q1.path c0.path = true := by
          rw [hq1p]
          exact hup
        have hq1len : q1.path.data.length ≤ m := by
          have hlt : q1.path.data.length < Q.path.data.length := by
            rw [hq1p, path_eq_merge Q hQb]
            exact merge_data_length_lt Q.container Q.name hn hc
          omega
        rcases ih q1 hq1 hq1len hq1und with he | ⟨ci, hci, hciu⟩
        · exfalso
          rw [he] at hq1p
          exact hdirect hq1p.symm
        · right
          refine ⟨ci, hci, ?_⟩
          have hQunder : underEq Q.path q1.path = true := by
            rw [path_eq_merge Q hQb, hq1p]
            exact underEq_merge_self Q.container Q.name hc
          exact underEq_trans Q.path q1.path ci.path hQunder hciu

/-- Removing a whole subtree from a well-formed store leaves a
well-formed store. -/
lemma WFparts_filter_under (S : Store) (hwf : WF S) (t : String) :
    WFparts (S.collections.filter (fun c => !(underEq c.path t)))
            (S.resources.filter (fun r => !(underEq r.container t)))
            (S.idIndex.filter
              (fun e => !(S.collections.any (fun c2 => underEq c2.path t && c2.id == e.id)))) := by
  obtain ⟨hroot, hnd, hgood, hpar, hres, hcol, hidx⟩ := hwf
  refine ⟨?_, ?_, ?_, ?_, ?_, ?_, ?_⟩
  · intro c hc
    exact hroot c (List.mem_of_mem_filter hc)
  · exact ((List.filter_sublist S.collections).map _).nodup hnd
  · intro c hc
    exact hgood c (List.mem_of_mem_filter hc)
  · intro c hc hb
    have hcm := List.mem_of_mem_filter hc
    have hcpred := List.of_mem_filter hc
    obtain ⟨q, hq, hqp⟩ := hpar c hcm hb
    refine ⟨q, List.mem_filter.mpr ⟨hq, ?_⟩, hqp⟩
    cases hqu : underEq q.path t
    · rfl
    · exfalso
      have hcu : underEq c.path t = true := by
        have h1 : underEq c.path c.container = true := by
          rw [path_eq_merge c hb]
          exact underEq_merge_self c.container c.name (hgood c hcm hb).2
        rw [← hqp] at h1
        have := underEq_trans c.path q.path t h1 hqu
        exact this
      rw [hcu] at hcpred
      simp at hcpred
  · intro r hr
    have hrm := List.mem_of_mem_filter hr
    have hrpred := List.of_mem_filter hr
    obtain ⟨hn, q, hq, hqp⟩ := hres r hrm
    refine ⟨hn, q, List.mem_filter.mpr ⟨hq, ?_⟩, hqp⟩
    cases hqu : underEq q.path t
    · rfl
    · exfalso
      rw [hqp] at hqu
      rw [hqu] at hrpred
      simp at hrpred
  · intro r hr c hc
    exact hcol r (List.mem_of_mem_filter hr) c (List.mem_of_mem_filter hc)
  · exact ((List.filter_sublist S.idIndex).map _).nodup hidx

/-- The induction invariant for the cascade: with enough fuel,
`delete_all` at the path of a listed collection succeeds and removes
exactly the subtree (collections and resources under the path, ID index
entries of removed collections), leaving everything else alone. -/
def DeleteSpec (f : Nat) : Prop :=
  ∀ (T : Store) (p : String) (c0 : CollectionRow), WF T → c0 ∈ T.collections →
    c0.path = p → szUnder T p ≤ f →
    ∃ T2, deleteAllFuel true (f + 1) T p = some (.ok (), T2)
      ∧ T2.collections = T.collections.filter (fun c => !(underEq c.path p))
      ∧ T2.resources = T.resources.filter (fun r => !(underEq r.container p))
      ∧ T2.idIndex = T.idIndex.filter
          (fun e => !(T.collections.any (fun c2 => underEq c2.path p && c2.id == e.id)))
      ∧ T2.searchIndex = T.searchIndex ∧ T2.nextId = T.nextId ∧ T2.clock = T.clock

/-- The child loop of `delete_all`, run over a list of non-nested,
listed children, accumulates the subtree removals. -/
lemma deleteAllGoList_spec (f : Nat) (hspec : DeleteSpec f) :
    ∀ (cs : List CollectionRow) (T : Store), WF T → cs.Nodup →
      (∀ ci ∈ cs, ci ∈ T.collections) →
      (∀ ci ∈ cs, szUnder T ci.path ≤ f) →
      (∀ ci ∈ cs, ∀ cj ∈ cs, ci ≠ cj → underEq cj.path ci.path = false) →
      ∃ T2, deleteAllGoList (deleteAllFuel true (f + 1)) T cs = some (.ok (), T2)
        ∧ T2.collections = T.collections.filter
            (fun c => !(cs.any (fun ci => underEq c.path ci.path)))
        ∧ T2.resources = T.resources.filter
            (fun r => !(cs.any (fun ci => underEq r.container ci.path)))
        ∧ T2.idIndex = T.idIndex.filter
            (fun e => !(T.collections.any
              (fun c2 => (cs.any (fun ci => underEq c2.path ci.path)) && c2.id == e.id)))
        ∧ T2.searchIndex = T.searchIndex ∧ T2.nextId = T.nextId ∧ T2.clock = T.clock := by
  intro cs
  induction cs with
  | nil =>
    intro T hwfT _ _ _ _
    refine ⟨T, rfl, ?_, ?_, ?_, rfl, rfl, rfl⟩ <;>
      · symm
        rw [List.filter_eq_self]
        intro x _
        simp
  | cons ci cs ihcs =>
    intro T hwfT hnodup hmem hfuel hpair
    obtain ⟨T1, heq1, hcol1, hres1, hidx1, hsch1, hnid1, hclk1⟩ :=
      hspec T ci.path ci hwfT (hmem ci (by simp)) rfl (hfuel ci (by simp))
    have hstep : deleteAllGoList (deleteAllFuel true (f + 1)) T (ci :: cs) =
        deleteAllGoList (deleteAllFuel true (f + 1)) T1 cs := by
      show (match deleteAllFuel true (f + 1) T ci.path with
        | none => none
        | some (Except.error e, T1) => some (Except.error e, T1)
        | some (Except.ok _, T1) => deleteAllGoList (deleteAllFuel true (f + 1)) T1 cs) = _
      rw [heq1]
    rw [hstep]
    have hnodup2 : cs.Nodup := (List.nodup_cons.mp hnodup).2
    have hcinotin : ci ∉ cs := (List.nodup_cons.mp hnodup).1
    have hwfT1 : WF T1 := by
      unfold WF
      rw [hcol1, hres1, hidx1]
      exact WFparts_filter_under T hwfT ci.path
    have hmem2 : ∀ cj ∈ cs, cj ∈ T1.collections := by
      intro cj hj
      rw [hcol1]
      refine List.mem_filter.mpr ⟨hmem cj (by simp [hj]), ?_⟩
      have hne : ci ≠ cj := fun he => hcinotin (he ▸ hj)
      rw [hpair ci (by simp) cj (by simp [hj]) hne]
      rfl
    have hfuel2 : ∀ cj ∈ cs, szUnder T1 cj.path ≤ f := by
      intro cj hj
      refine le_trans ?_ (hfuel cj (by simp [hj]))
      unfold szUnder
      rw [hcol1]
      exact (((List.filter_sublist T.collections).filter _)).length_le
    have hpair2 : ∀ ca ∈ cs, ∀ cb ∈ cs, ca ≠ cb → underEq cb.path ca.path = false :=
      fun ca ha cb hb hne => hpair ca (by simp [ha]) cb (by simp [hb]) hne
    obtain ⟨T2, heq2, hcol2, hres2, hidx2, hsch2, hnid2, hclk2⟩ :=
      ihcs T1 hwfT1 hnodup2 hmem2 hfuel2 hpair2
    refine ⟨T2, heq2, ?_, ?_, ?_, hsch2.trans hsch1, hnid2.trans hnid1, hclk2.trans hclk1⟩
    · rw [hcol2, hcol1, List.filter_filter]
      apply List.filter_congr
      intro x _
      rw [List.any_cons]
      cases h1 : underEq x.path ci.path <;>
        cases h2 : cs.any (fun cj => underEq x.path cj.path) <;> simp [h1, h2]
    · rw [hres2, hres1, List.filter_filter]
      apply List.filter_congr
      intro x _
      rw [List.any_cons]
      cases h1 : underEq x.container ci.path <;>
        cases h2 : cs.any (fun cj => underEq x.container cj.path) <;> simp [h1, h2]
    · rw [hidx2, hidx1, List.filter_filter]
      apply List.filter_congr
      intro e _
      rw [Bool.eq_iff_iff]
      simp only [Bool.and_eq_true, Bool.not_eq_true', List.any_eq_false, List.any_eq_true,
        Bool.or_eq_true, List.any_cons, not_and, beq_iff_eq]
      constructor
      · rintro ⟨hY, hX⟩ c2 hc2 hor
        rcases hor with hci | hcs
        · exact hX c2 hc2 hci
        · by_cases hciu : underEq c2.path ci.path = true
          · exact hX c2 hc2 hciu
          · have hc2T1 : c2 ∈ T1.collections := by
              rw [hcol1]
              refine List.mem_filter.mpr ⟨hc2, ?_⟩
              cases h : underEq c2.path ci.path
              · rfl
              · exact absurd h hciu
            exact hY c2 hc2T1 hcs
      · intro hZ
        constructor
        · intro c2 hc2 hcs
          have hc2T : c2 ∈ T.collections := by
            rw [hcol1] at hc2
            exact List.mem_of_mem_filter hc2
          exact hZ c2 hc2T (.inr hcs)
        · intro c2 hc2 hci
          exact hZ c2 hc2 (.inl hci)

/-- Filtering resources keeps a store well-formed. -/
lemma WFparts_resources_filter (S : Store) (hwf : WF S) (q : ResourceRow → Bool) :
    WFparts S.collections (S.resources.filter q) S.idIndex := by
  obtain ⟨h1, h2, h3, h4, h5, h6, h7⟩ := hwf
  exact ⟨h1, h2, h3, h4, fun r hr => h5 r (List.mem_of_mem_filter hr),
    fun r hr => h6 r (List.mem_of_mem_filter hr), h7⟩

/-- The cascade delete satisfies its removal specification at every
fuel bound large enough for the subtree. -/
lemma deleteSpec_all : ∀ f, DeleteSpec f := by
  intro f
  induction f with
  | zero =>
    intro T p c0 hwfT h0 hp hsz
    exfalso
    have hc0 : c0 ∈ T.collections.filter (fun c => underEq c.path p) :=
      List.mem_filter.mpr ⟨h0, by rw [hp]; exact underEq_refl p⟩
    have hpos : 0 < szUnder T p := by
      unfold szUnder
      exact List.length_pos.mpr (fun he => by rw [he] at hc0; cases hc0)
    omega
  | succ n ih =>
    intro T p c0 hwfT h0 hp hsz
    subst hp
    have hfind := collFindByPath_self T hwfT c0 h0
    have hunf : deleteAllFuel true (n + 1 + 1) T c0.path =
        match collFindByPath T c0.path with
        | none => some (.ok (), T)
        | some parent =>
          match delResources true T (childResources T parent) with
          | (.error e, S1) => some (.error e, S1)
          | (.ok _, S1) =>
            match deleteAllGoList (deleteAllFuel true (n + 1)) S1 (childCollections T parent) with
            | none => none
            | some (Except.error e, S2) => some (Except.error e, S2)
            | some (Except.ok _, S2) => some (collDelete true S2 parent) := rfl
    rw [hunf, hfind]
    dsimp only
    have hall : ∀ r ∈ childResources T c0, r.container = c0.path := by
      intro r hr
      have := List.of_mem_filter hr
      simpa [beq_iff_eq] using this
    have hcov : ∀ r ∈ T.resources, r.container = c0.path → r ∈ childResources T c0 := by
      intro r hr hrc
      exact List.mem_filter.mpr ⟨hr, by simp [hrc]⟩
    have hdel := delResources_removes c0.path (childResources T c0) T hall hcov
    have hDRpair : delResources true T (childResources T c0) =
        (Except.ok (), (delResources true T (childResources T c0)).2) := by
      rw [← hdel.1] <;> exact Prod.mk.eta.symm
    rw [hDRpair]
    dsimp only
    have hS1col := hdel.2.1
    have hS1res := hdel.2.2.1
    have hS1idx := hdel.2.2.2.1
    have hS1sch := hdel.2.2.2.2.1
    have hS1nid := hdel.2.2.2.2.2.1
    have hS1clk := hdel.2.2.2.2.2.2
    have hrowsND : T.collections.Nodup := List.Nodup.of_map _ hwfT.2.1
    have hchsub : ∀ ci ∈ childCollections T c0, ci ∈ T.collections :=
      fun ci hci => ((mem_childCollections T c0 ci).mp hci).1
    have hchcont : ∀ ci ∈ childCollections T c0, ci.container = c0.path :=
      fun ci hci => ((mem_childCollections T c0 ci).mp hci).2
    have hchnodup : (childCollections T c0).Nodup :=
      (List.filter_sublist T.collections).nodup hrowsND
    have hwfS1 : WF (delResources true T (childResources T c0)).2 := by
      unfold WF
      rw [hS1col, hS1res, hS1idx]
      exact WFparts_resources_filter T hwfT _
    have hchmem : ∀ ci ∈ childCollections T c0,
        ci ∈ (delResources true T (childResources T c0)).2.collections := by
      intro ci hci
      rw [hS1col]
      exact hchsub ci hci
    have hchfuel : ∀ ci ∈ childCollections T c0,
        szUnder (delResources true T (childResources T c0)).2 ci.path ≤ n := by
      intro ci hci
      have hlt : szUnder T ci.path < szUnder T c0.path := by
        unfold szUnder
        refine length_filter_lt_of_imp T.collections _ _ ?_ c0 h0 ?_ ?_
        · intro x _ hx
          exact underEq_trans x.path ci.path c0.path hx
            (child_under T hwfT c0 ci h0 (hchsub ci hci) (hchcont ci hci))
        · exact underEq_refl c0.path
        · exact parent_not_under_child T hwfT c0 ci h0 (hchsub ci hci) (hchcont ci hci)
      have heqsz : szUnder (delResources true T (childResources T c0)).2 ci.path =
          szUnder T ci.path := by
        unfold szUnder
        rw [hS1col]
      omega
    have hchpair : ∀ ci ∈ childCollections T c0, ∀ cj ∈ childCollections T c0,
        ci ≠ cj → underEq cj.path ci.path = false :=
      fun ci hci cj hcj hne => children_not_nested T hwfT c0 ci cj h0 hci hcj hne
    obtain ⟨S2, heqF, hcolF, hresF, hidxF, hschF, hnidF, hclkF⟩ :=
      deleteAllGoList_spec n ih (childCollections T c0)
        (delResources true T (childResources T c0)).2 hwfS1 hchnodup hchmem hchfuel hchpair
    rw [heqF]
    dsimp only
    have hcd_fst := collDelete_true_fst S2 c0
    refine ⟨(collDelete true S2 c0).2,
      congrArg some (by rw [← hcd_fst] <;> exact Prod.mk.eta.symm), ?_, ?_, ?_, ?_, ?_, ?_⟩
    · rw [collDelete_true_collections S2 c0, hcolF, hS1col, List.filter_filter]
      apply List.filter_congr
      intro x hx
      rw [Bool.eq_iff_iff]
      simp only [Bool.and_eq_true, Bool.not_eq_true', List.any_eq_false, List.any_eq_true,
        beq_iff_eq, not_and]
      constructor
      · intro hb
        cases hu : underEq x.path c0.path
        · rfl
        · exfalso
          rcases under_children T hwfT c0 h0 x.path.data.length x hx le_rfl hu with he | hex
          · rw [he] at hb
            simp at hb
          · obtain ⟨ci, hci, hciu⟩ := hex
            exact hb.2 ci hci hciu
      · intro hb
        constructor
        · cases hk : (x.container == c0.container && x.name == c0.name)
          · rfl
          · exfalso
            simp only [Bool.and_eq_true, beq_iff_eq] at hk
            have hxe : x = c0 := List.inj_on_of_nodup_map hwfT.2.1 hx h0 (by rw [hk.1, hk.2])
            rw [hxe, underEq_refl c0.path] at hb
            cases hb
        · intro ci hci hciu
          have := underEq_trans x.path ci.path c0.path hciu
            (child_under T hwfT c0 ci h0 (hchsub ci hci) (hchcont ci hci))
          rw [this] at hb
          cases hb
    · rw [collDelete_true_resources S2 c0, hresF, hS1res, List.filter_filter]
      apply List.filter_congr
      intro r hr
      rw [Bool.eq_iff_iff]
      simp only [Bool.and_eq_true, Bool.not_eq_true', List.any_eq_false, List.any_eq_true,
        beq_iff_eq, not_and, beq_eq_false_iff_ne, ne_eq]
      constructor
      · rintro ⟨hch, hne⟩
        cases hu : underEq r.container c0.path
        · rfl
        · exfalso
          obtain ⟨hn, q, hq, hqp⟩ := hwfT.2.2.2.2.1 r hr
          rw [← hqp] at hu hne
          rcases under_children T hwfT c0 h0 q.path.data.length q hq le_rfl hu with he | hex
          · rw [he] at hne
            exact hne rfl
          · obtain ⟨ci, hci, hciu⟩ := hex
            rw [hqp] at hciu
            exact hch ci hci hciu
      · intro hb
        constructor
        · intro ci hci hciu
          have := underEq_trans r.container ci.path c0.path hciu
            (child_under T hwfT c0 ci h0 (hchsub ci hci) (hchcont ci hci))
          rw [this] at hb
          cases hb
        · intro he
          rw [he, underEq_refl c0.path] at hb
          cases hb
    · rw [collDelete_true_idIndex S2 c0, hidxF, hS1col, hS1idx, List.filter_filter]
      apply List.filter_congr
      intro e he
      rw [Bool.eq_iff_iff]
      simp only [Bool.and_eq_true, Bool.not_eq_true', List.any_eq_false, List.any_eq_true,
        beq_iff_eq, not_and]
      constructor
      · rintro ⟨hneid, hforall⟩ c2 hc2 hu hid
        rcases under_children T hwfT c0 h0 c2.path.data.length c2 hc2 le_rfl hu with hce | hex
        · rw [hce] at hid
          rw [hid] at hneid
          simp at hneid
        · obtain ⟨ci, hci, hciu⟩ := hex
          exact hforall c2 hc2 ⟨ci, hci, hciu⟩ hid
      · intro hZ
        constructor
        · cases hk : (e.id == c0.id)
          · rfl
          · exfalso
            simp only [beq_iff_eq] at hk
            exact hZ c0 h0 (underEq_refl c0.path) hk.symm
        · intro c2 hc2 hanyc hid
          obtain ⟨ci, hci, hciu⟩ := hanyc
          have := underEq_trans c2.path ci.path c0.path hciu
            (child_under T hwfT c0 ci h0 (hchsub ci hci) (hchcont ci hci))
          exact hZ c2 hc2 this hid
    · rw [collDelete_true_rest S2 c0 |>.1, hschF, hS1sch]
    · rw [collDelete_true_rest S2 c0 |>.2.1, hnidF, hS1nid]
    · rw [collDelete_true_rest S2 c0 |>.2.2, hclkF, hS1clk]

/-- Filtering by a predicate after having kept only its complement yields
the empty list. -/
lemma filter_of_filter_not {α : Type} (q : α → Bool) :
    ∀ l : List α, (l.filter (fun a => !(q a))).filter q = []
  | [] => rfl
  | a :: l => by
    cases h : q a
    · simp [List.filter_cons, h, filter_of_filter_not q l]
    · simp [List.filter_cons, h, filter_of_filter_not q l]

/-- `delete_all` on a path with no existing collection returns at once
and leaves the store untouched. -/
lemma deleteAll_noop (S : Store) (q : String) (h : collFindByPath S q = none) :
    deleteAllFuel true 1 S q = some (.ok (), S) := by
  have hunf : deleteAllFuel true 1 S q =
      match collFindByPath S q with
      | none => some (.ok (), S)
      | some parent =>
        match delResources true S (childResources S parent) with
        | (.error e, S1) => some (.error e, S1)
        | (.ok _, S1) =>
          match deleteAllGoList (deleteAllFuel true 0) S1 (childCollections S parent) with
          | none => none
          | some (Except.error e, S2) => some (Except.error e, S2)
          | some (Except.ok _, S2) => some (collDelete true S2 parent) := rfl
  rw [hunf, h]

/-- A row returned by `find_by_path` is a stored row. -/
lemma collFindByPath_mem (S : Store) (p : String) (c0 : CollectionRow)
    (h : collFindByPath S p = some c0) : c0 ∈ S.collections := by
  unfold collFindByPath at h
  by_cases hp : p = "/"
  · rw [if_pos hp] at h
    unfold getRootCollection at h
    exact List.mem_of_find?_eq_some h
  · rw [if_neg hp] at h
    exact List.mem_of_find?_eq_some h

/-- After the lookup, `delete_all` works only with the found row, so the
run on the query path agrees with the run on the row's own path. -/
lemma deleteAllFuel_found_congr (S : Store) (p : String) (c0 : CollectionRow) (n : Nat)
    (h : collFindByPath S p = some c0) (h2 : collFindByPath S c0.path = some c0) :
    deleteAllFuel true (n + 1) S p = deleteAllFuel true (n + 1) S c0.path := by
  have hu1 : deleteAllFuel true (n + 1) S p =
      match collFindByPath S p with
      | none => some (.ok (), S)
      | some parent =>
        match delResources true S (childResources S parent) with
        | (.error e, S1) => some (.error e, S1)
        | (.ok _, S1) =>
          match deleteAllGoList (deleteAllFuel true n) S1 (childCollections S parent) with
          | none => none
          | some (Except.error e, S2) => some (Except.error e, S2)
          | some (Except.ok _, S2) => some (collDelete true S2 parent) := rfl
  have hu2 : deleteAllFuel true (n + 1) S c0.path =
      match collFindByPath S c0.path with
      | none => some (.ok (), S)
      | some parent =>
        match delResources true S (childResources S parent) with
        | (.error e, S1) => some (.error e, S1)
        | (.ok _, S1) =>
          match deleteAllGoList (deleteAllFuel true n) S1 (childCollections S parent) with
          | none => none
          | some (Except.error e, S2) => some (Except.error e, S2)
          | some (Except.ok _, S2) => some (collDelete true S2 parent) := rfl
  rw [hu1, hu2, h, h2]

/-- C7: on a well-formed tree, `delete_all` at the path of an existing
collection succeeds, leaving zero collections and zero resources under that
path; it removes exactly the subtree rows and the ID-index entries of the
deleted collections and touches nothing else; invoked on a path with no
existing collection it changes nothing. -/
theorem claim7_delete_all_cascade (S : Store) (p : String) (c0 : CollectionRow)
    (hwf : WF S) (hc0 : c0 ∈ S.collections) (hp : c0.path = p) :
    (∀ q, collFindByPath S q = none → deleteAllFuel true 1 S q = some (.ok (), S))
    ∧ ∃ T2, deleteAllFuel true (szUnder S p + 1) S p = some (.ok (), T2)
      ∧ T2.collections.filter (fun c => underEq c.path p) = []
      ∧ T2.resources.filter (fun r => underEq r.container p) = []
      ∧ T2.collections = S.collections.filter (fun c => !(underEq c.path p))
      ∧ T2.resources = S.resources.filter (fun r => !(underEq r.container p))
      ∧ T2.idIndex = S.idIndex.filter
          (fun e => !(S.collections.any (fun c2 => underEq c2.path p && c2.id == e.id)))
      ∧ T2.searchIndex = S.searchIndex ∧ T2.nextId = S.nextId ∧ T2.clock = S.clock := by
  refine ⟨fun q hq => deleteAll_noop S q hq, ?_⟩
  obtain ⟨T2, h1, h2, h3, h4, h5, h6, h7⟩ :=
    deleteSpec_all (szUnder S p) S p c0 hwf hc0 hp le_rfl
  exact ⟨T2, h1,
    by rw [h2]; exact filter_of_filter_not _ _,
    by rw [h3]; exact filter_of_filter_not _ _,
    h2, h3, h4, h5, h6, h7⟩

/-- Concrete run of C7: deleting the root subtree of the store holding the
root, the collection `/a` and the resource `/f.txt` empties the tree. -/
theorem claim7_delete_all_cascade_witness :
    WF storeD ∧ rootRow ∈ storeD.collections ∧ rootRow.path = "/"
    ∧ (∃ T2, deleteAllFuel true (szUnder storeD "/" + 1) storeD "/" = some (.ok (), T2)
        ∧ T2.collections.filter (fun c => underEq c.path "/") = []
        ∧ T2.resources.filter (fun r => underEq r.container "/") = []) :=
  ⟨by decide, by decide, by decide,
    Exists.imp (fun T2 h => ⟨h.1, h.2.1, h.2.2.1⟩)
      ((claim7_delete_all_cascade storeD "/" rootRow (by decide) (by decide) (by decide)).2)⟩

/-- C6 (amended): on a well-formed store `delete_all` terminates on every
path: some finite fuel completes the recursion with a success. -/
theorem claim6_delete_all_terminates_on_wf (S : Store) (p : String) (hwf : WF S) :
    ∃ n T2, deleteAllFuel true n S p = some (.ok (), T2) := by
  cases hfind : collFindByPath S p with
  | none => exact ⟨1, S, deleteAll_noop S p hfind⟩
  | some c0 =>
    have hmem : c0 ∈ S.collections := collFindByPath_mem S p c0 hfind
    have hself := collFindByPath_self S hwf c0 hmem
    obtain ⟨T2, h1, _⟩ :=
      deleteSpec_all (szUnder S c0.path) S c0.path c0 hwf hmem rfl le_rfl
    refine ⟨szUnder S c0.path + 1, T2, ?_⟩
    rw [deleteAllFuel_found_congr S p c0 (szUnder S c0.path) hfind hself]
    exact h1

/-- Concrete run of the amended C6: on the well-formed three-collection
store, deleting `/a` terminates. -/
theorem claim6_delete_all_terminates_on_wf_witness :
    WF storeC ∧ ∃ n T2, deleteAllFuel true n storeC "/a" = some (.ok (), T2) :=
  ⟨by decide, claim6_delete_all_terminates_on_wf storeC "/a" (by decide)⟩

end Drastic
